import Mathlib

set_option maxRecDepth 16384

/-!
Shallow embedding of the AI-Employee vault orchestration scripts
(`scripts/plan_creator.py` and `scripts/orchestrator.py`) together with
proofs about the behavioural claims of the specification.

All text is modelled as explicit character lists (`Str := List Char`), so
that every definition is executable and every concrete instance can be
checked by the kernel.  Python string operations (`in`, `.lower()`,
`.strip()`, `str(dict)`, regular-expression search and substitution) are
modelled character by character, following the CPython semantics of the
exact patterns appearing in the source.
-/

/-- Characters of a piece of text; the model works on explicit character
lists throughout. -/
abbrev Str := List Char

/-- Python substring test `needle in hay` on character lists. -/
def containsSeq (needle : Str) : Str → Bool
  | [] => needle.isEmpty
  | c :: cs => needle.isPrefixOf (c :: cs) || containsSeq needle cs

/-- Python whitespace class (`str.strip` / regex `\s`): space, tab,
newline, carriage return, vertical tab, form feed. -/
def isPySpace (c : Char) : Bool :=
  c = ' ' || c = '\t' || c = '\n' || c = '\r' || c = '\x0b' || c = '\x0c'

/-- Python `str.strip()`: remove whitespace from both ends. -/
def pyStrip (s : Str) : Str :=
  ((s.dropWhile isPySpace).reverse.dropWhile isPySpace).reverse

/-- ASCII fragment of Python `str.lower()`; all keywords compared by the
scripts are pure ASCII, so this captures `.lower()` on every relevant
input. -/
def toLowerChars (s : Str) : Str :=
  s.map fun c => if 'A' ≤ c && c ≤ 'Z' then Char.ofNat (c.toNat + 32) else c

/-- Accumulator loop for `natDigits`. -/
def natDigitsGo : Nat → Str → Str
  | 0, acc => acc
  | m + 1, acc =>
    natDigitsGo ((m + 1) / 10) (Char.ofNat ((m + 1) % 10 + 48) :: acc)
decreasing_by exact Nat.div_lt_self (Nat.succ_pos m) (by omega)

/-- Decimal digits of a natural number, as produced by Python `str(n)`
for the non-negative folder counts. -/
def natDigits (n : Nat) : Str :=
  if n = 0 then ['0'] else natDigitsGo n []

/-! ### Data parsed from an action-item file

`PlanCreator._parse_email_frontmatter` collects the regex matches for the
six header keys plus the body into a Python dict, inserting the keys in
the fixed order below; a key is absent when its pattern does not match. -/

/-- The dict built by `PlanCreator._parse_email_frontmatter`: each field
is `none` when the corresponding regex found no match.  The Python
identifier `from` is a Lean keyword, hence `fromAddr`; `to` likewise
becomes `toAddr`. -/
structure EmailData where
  fromAddr : Option Str
  toAddr : Option Str
  subject : Option Str
  received : Option Str
  priority : Option Str
  messageId : Option Str
  body : Option Str
deriving DecidableEq

/-- Escape of one character inside a Python `repr` of a string quoted by
`q` (backslash, the quote character and the common control characters;
all values in the scripts are printable text). -/
def pyCharEscape (q : Char) (c : Char) : Str :=
  if c = '\\' then ['\\', '\\']
  else if c = q then ['\\', q]
  else if c = '\n' then ['\\', 'n']
  else if c = '\r' then ['\\', 'r']
  else if c = '\t' then ['\\', 't']
  else [c]

/-- Python `repr` of a string: single-quoted, switching to double quotes
when the text contains a single quote but no double quote. -/
def pyStrRepr (s : Str) : Str :=
  let q : Char := if s.contains '\'' && !(s.contains '"') then '"' else '\''
  q :: (s.map (pyCharEscape q)).flatten ++ [q]

/-- The key/value pairs of the parsed dict in insertion order, present
keys only (mirroring the order of the `re.search` calls in
`_parse_email_frontmatter`). -/
def EmailData.entries (d : EmailData) : List (Str × Str) :=
  ([("from".toList, d.fromAddr), ("to".toList, d.toAddr),
    ("subject".toList, d.subject), ("received".toList, d.received),
    ("priority".toList, d.priority), ("message_id".toList, d.messageId),
    ("body".toList, d.body)]).filterMap fun p => p.2.map fun v => (p.1, v)

/-- Join character lists with a separator. -/
def joinSep (sep : Str) : List Str → Str
  | [] => []
  | [x] => x
  | x :: y :: xs => x ++ sep ++ joinSep sep (y :: xs)

/-- Python `str(email_data)`: the `repr` of the dict, `{'k': 'v', ...}`. -/
def pyDictRepr (d : EmailData) : Str :=
  '\x7b' :: joinSep (", ".toList)
      (d.entries.map fun p => pyStrRepr p.1 ++ ':' :: ' ' :: pyStrRepr p.2)
    ++ ['\x7d']

/-! ### The approval decision engine (`PlanCreator._check_approval_needed`) -/

/-- The configured allow-list, exactly as in the source
(`known_contacts = ['@yourcompany.com', '@yourdomain.com']`). -/
def knownContacts : List Str := ["@yourcompany.com".toList, "@yourdomain.com".toList]

/-- The configured sensitive keywords, exactly as in the source. -/
def sensitiveKeywords : List Str :=
  ["payment".toList, "invoice".toList, "contract".toList,
   "legal".toList, "money".toList, "bank".toList]

/-- `PlanCreator._check_approval_needed`, step for step:
1. a non-empty recipient containing none of the `known_contacts`
   substrings requires approval;
2. `'attachments' in str(email_data)` requires approval;
3. any sensitive keyword inside the lower-cased subject or body requires
   approval; otherwise no approval is needed. -/
def checkApprovalNeeded (d : EmailData) : Bool :=
  let toEmail := d.toAddr.getD []
  if !toEmail.isEmpty && !(knownContacts.any fun dom => containsSeq dom toEmail) then
    true
  else if containsSeq ("attachments".toList) (pyDictRepr d) then
    true
  else
    let subj := toLowerChars (d.subject.getD [])
    let body := toLowerChars (d.body.getD [])
    if sensitiveKeywords.any (fun kw => containsSeq kw subj || containsSeq kw body) then
      true
    else
      false

/-- The recipient domain as the specification's claim understands it:
everything after the last `@`.  This definition follows the SPEC's words
(claim C2 speaks of "the recipient's domain"), to be compared against the
substring test the code actually performs. -/
def specRecipientDomain (toEmail : Str) : Str :=
  ((toEmail.reverse.takeWhile fun c => c ≠ '@')).reverse

/-- The allow-list as a set of domains in the spec's reading of C2. -/
def specAllowedDomains : List Str := ["yourcompany.com".toList, "yourdomain.com".toList]

/-! ### The orchestrator (`scripts/orchestrator.py`)

The reasoning agent, the dispatch subprocess and the human moving files
into `Approved` are external collaborators; their effects enter the model
as inputs.  File renames are modelled as succeeding. -/

/-- Outcome of running the dispatch subprocess
(`subprocess.run` in `_send_email_via_script`). -/
inductive ExecOutcome where
  | completed (returncode : Int) (stdout : Str) (stderr : Str)
  | timeout
  | exc (msg : Str)
deriving DecidableEq

/-- Status dict returned by `Orchestrator._send_email_via_script`. -/
inductive SendStatus where
  | sent
  | sendError (msg : Str)
deriving DecidableEq

/-- `Orchestrator._send_email_via_script`: success requires exit code 0
and the marker string `Email sent successfully` in standard output. -/
def sendEmailViaScript (outcome : ExecOutcome) : SendStatus :=
  match outcome with
  | .completed rc out err =>
      if rc = 0 && containsSeq "Email sent successfully".toList out then
        .sent
      else
        .sendError (if err.isEmpty then "Unknown error".toList else err)
  | .timeout => .sendError "Timeout".toList
  | .exc m => .sendError m

/-- One record of the append-only action log
(`Orchestrator.log_action`). -/
structure LogEntry where
  timestamp : Str
  actionType : Str
  actor : Str
  details : Str
  status : Str
deriving DecidableEq

/-- `Orchestrator.log_action` with its fixed actor. -/
def logAction (now actionType details status : Str) : LogEntry :=
  ⟨now, actionType, "orchestrator".toList, details, status⟩

/-- Suffixes of the text starting right after each newline. -/
def suffixesAfterNewlines : Str → List Str
  | [] => []
  | c :: cs =>
    if c = '\n' then cs :: suffixesAfterNewlines cs else suffixesAfterNewlines cs

/-- All suffixes of the text starting at a line start (position 0 and
each position after a newline): the candidate anchors of a MULTILINE
`^`. -/
def lineStartSuffixes (s : Str) : List Str := s :: suffixesAfterNewlines s

/-- The `(.+)` group when it starts `k` whitespace characters into `r`:
defined when the character there exists and is not a newline, in which
case it greedily captures up to the end of the line. -/
def fieldValueAt (r : Str) (k : Nat) : Option Str :=
  if k < r.length && !(r.getD k '\n' = '\n') then
    some ((r.drop k).takeWhile fun c => c ≠ '\n')
  else
    none

/-- Backtracking search for `\s*(.+)$`: try the greedy whitespace prefix
first, then shorter ones. -/
def fieldValueSearch (r : Str) : Nat → Option Str
  | 0 => fieldValueAt r 0
  | k + 1 => ((fieldValueAt r (k + 1)).orElse fun _ => fieldValueSearch r k)

/-- Match of the regex tail `\s*(.+)$` against the text `r` following
`field:` (the `\s` class may cross newlines; `$` always holds at the end
of the greedy `.+` run). -/
def matchFieldValue (r : Str) : Option Str :=
  fieldValueSearch r (r.takeWhile isPySpace).length

/-- `Orchestrator._extract_field`: first MULTILINE match of
`^field:\s*(.+)$` anywhere in the document, stripped; the default `''`
when no line matches. -/
def extractField (content : Str) (field : Str) : Str :=
  let pat := field ++ [':']
  let hits := (lineStartSuffixes content).filterMap fun s =>
    if pat.isPrefixOf s then matchFieldValue (s.drop pat.length) else none
  match hits with
  | [] => []
  | v :: _ => pyStrip v

/-- Match `\s*\n` at the head of `r`: consume the whitespace prefix up to
and including its last newline; `none` when the whitespace prefix
contains no newline. -/
def matchWsNewline (r : Str) : Option Str :=
  let ws := r.takeWhile isPySpace
  if ws.contains '\n' then
    some (r.drop (ws.length - (ws.reverse.takeWhile fun c => c ≠ '\n').length))
  else
    none

/-- The lazy group `(.*?)` of the body-section regexes: the shortest
prefix ending where `^##`, `^---` or the end of text matches (`als` says
whether the current position is a line start). -/
def bodyUpToTerminator (als : Bool) : Str → Str
  | [] => []
  | c :: cs =>
    if als && ("##".toList.isPrefixOf (c :: cs) || "---".toList.isPrefixOf (c :: cs)) then
      []
    else
      c :: bodyUpToTerminator (c = '\n') cs

/-- Scan for the first occurrence of a section-heading literal followed
by a successful `\s*\n` match, returning the lazily captured body. -/
def findSectionBody (lit : Str) : Str → Option Str
  | [] => none
  | c :: cs =>
    if lit.isPrefixOf (c :: cs) then
      match matchWsNewline ((c :: cs).drop lit.length) with
      | some r => some (bodyUpToTerminator true r)
      | none => findSectionBody lit cs
    else
      findSectionBody lit cs

/-- `re.sub(r'^\s*\*\s*', '', body, flags=re.MULTILINE)`: at each line
start, delete a whitespace run followed by `*` and a further whitespace
run (both runs may cross newlines). -/
def stripStarPrefixes (als : Bool) : Str → Str
  | [] => []
  | c :: cs =>
    if als then
      let ws := (c :: cs).takeWhile isPySpace
      match hr : (c :: cs).drop ws.length with
      | '*' :: r2 =>
        let ws2 := r2.takeWhile isPySpace
        stripStarPrefixes (ws2.getLast? = some '\n') (r2.drop ws2.length)
      | _ => c :: stripStarPrefixes (c = '\n') cs
    else
      c :: stripStarPrefixes (c = '\n') cs
termination_by s => s.length
decreasing_by
  all_goals simp_wf
  have h1 := congrArg List.length hr
  simp [List.length_drop] at h1
  omega

/-- The accepted body-section headings, in the order the code tries
them. -/
def bodySectionLits : List Str :=
  ["## Suggested Reply".toList, "## Reply Content".toList,
   "## Content".toList, "## Email Body".toList]

/-- The fallback loop of `_extract_email_body`: collect lines after the
first `---` line, skipping headings and `---`-prefixed lines. -/
def fallbackBodyLines : Bool → List Str → List Str
  | _, [] => []
  | inBody, line :: ls =>
    if pyStrip line = "---".toList && !inBody then
      fallbackBodyLines true ls
    else if inBody && !("---".toList.isPrefixOf line) then
      if "#".toList.isPrefixOf line then
        fallbackBodyLines inBody ls
      else
        line :: fallbackBodyLines inBody ls
    else
      fallbackBodyLines inBody ls

/-- `Orchestrator._extract_email_body`: try the four section regexes in
order (strip, then remove `*` list markers), otherwise fall back to the
after-frontmatter line loop. -/
def extractEmailBody (content : Str) : Str :=
  match bodySectionLits.filterMap (fun lit => findSectionBody lit content) with
  | b :: _ => stripStarPrefixes true (pyStrip b)
  | [] => pyStrip (joinSep ['\n'] (fallbackBodyLines false (content.splitOn '\n')))

/-- Result of handling one Approved-stage item inside the loop of
`Orchestrator.process_approved`: the dispatch attempt (if any) with the
arguments handed to the send script, the log records appended, and
whether the file was moved to `Done`. -/
structure ItemResult where
  send : Option (Str × Str × Str)
  logs : List LogEntry
  moved : Bool
deriving DecidableEq

/-- Body of the per-item loop of `Orchestrator.process_approved`.  The
dispatch subprocess outcome is the parameter `exec`; `continue` on
missing fields yields no dispatch, no log record and no move. -/
def processApprovedItem (now : Str) (content : Str) (exec : ExecOutcome) : ItemResult :=
  let actionType := extractField content "action".toList
  if actionType = "email_send".toList then
    let toEmail := extractField content "to".toList
    let subject := extractField content "subject".toList
    let body := extractEmailBody content
    if toEmail.isEmpty || subject.isEmpty then
      ⟨none, [], false⟩
    else
      match sendEmailViaScript exec with
      | .sent =>
        ⟨some (toEmail, subject, body),
         [logAction now "email_sent".toList
            ("To: ".toList ++ toEmail ++ ", Subject: ".toList ++ subject)
            "success".toList],
         true⟩
      | .sendError _ => ⟨some (toEmail, subject, body), [], true⟩
  else
    ⟨none, [], true⟩

/-! ### The orchestration loop (`Orchestrator.run`)

Directory listings of `Needs_Action`, success of the reasoning-agent
invocation, files moved into `Approved` by the human, and dispatch
subprocess outcomes are all effects of external collaborators, so each
polling cycle receives them as an input record. -/

/-- The orchestrator-owned state: the in-memory dedup set
(`self.processed_files`), the contents of the `Approved` directory and
the names accumulated in `Done`. -/
structure VaultState where
  processedFiles : List Str
  approvedDir : List (Str × Str)
  doneNames : List Str

/-- External inputs of one polling cycle. -/
structure CycleInput where
  listing : List (Str × Nat)
  qwenOk : Bool
  newApproved : List (Str × Str)
  execOutcomes : Str → ExecOutcome
  now : Str

/-- `Orchestrator.get_pending_items`: the `Needs_Action` listing without
already-processed names, sorted by modification time (oldest first;
`List.mergeSort` is stable, like Python's `sort`). -/
def getPendingItems (processed : List Str) (listing : List (Str × Nat)) :
    List (Str × Nat) :=
  (listing.filter fun f => !(processed.contains f.1)).mergeSort
    fun a b => decide (a.2 ≤ b.2)

/-- `Orchestrator.process_needs_action`: build the batch naming every
pending file, hand it to the reasoning agent, and extend the dedup set
only when the agent invocation reports success.  Returns the new dedup
set and the batch submitted (`none` when no invocation happened). -/
def processNeedsAction (processed : List Str) (inp : CycleInput) :
    List Str × Option (List Str) :=
  let pending := getPendingItems processed inp.listing
  if pending.isEmpty then
    (processed, none)
  else
    let batch := pending.map Prod.fst
    if inp.qwenOk then (processed ++ batch, some batch) else (processed, some batch)

/-- Aggregate outcome of `Orchestrator.process_approved` over the
directory: items left in `Approved` (the `continue` cases), names moved
to `Done`, log records appended, and the dispatch attempts keyed by
`(name, content)`. -/
structure ApprovedResult where
  remaining : List (Str × Str)
  movedNames : List Str
  logs : List LogEntry
  sends : List (Str × Str × (Str × Str × Str))

/-- `Orchestrator.process_approved`: handle each item of the listing in
order with `processApprovedItem`. -/
def processApprovedDir (now : Str) (exec : Str → ExecOutcome) :
    List (Str × Str) → ApprovedResult
  | [] => ⟨[], [], [], []⟩
  | (name, content) :: items =>
    let r := processApprovedItem now content (exec name)
    let rest := processApprovedDir now exec items
    { remaining := (if r.moved then [] else [(name, content)]) ++ rest.remaining
      movedNames := (if r.moved then [name] else []) ++ rest.movedNames
      logs := r.logs ++ rest.logs
      sends := (match r.send with
        | some a => [(name, content, a)]
        | none => []) ++ rest.sends }

/-- Observable actions of one polling cycle. -/
structure CycleOutput where
  submittedBatch : List Str
  approvedSeen : List Str
  sends : List (Str × Str × (Str × Str × Str))
  logs : List LogEntry

/-- One iteration of the `while True` loop of `Orchestrator.run`:
process `Needs_Action`, then `Approved`, extending the dedup set with
every name handed to the agent (on success) or moved to `Done`.  The
dashboard rewrite, which touches only the dashboard document, is modelled
separately by `updateDashboard`. -/
def runCycle (st : VaultState) (inp : CycleInput) : VaultState × CycleOutput :=
  let na := processNeedsAction st.processedFiles inp
  let approvedNow := st.approvedDir ++ inp.newApproved
  let ar := processApprovedDir inp.now inp.execOutcomes approvedNow
  ({ processedFiles := na.1 ++ ar.movedNames
     approvedDir := ar.remaining
     doneNames := st.doneNames ++ ar.movedNames },
   { submittedBatch := (na.2).getD []
     approvedSeen := approvedNow.map Prod.fst
     sends := ar.sends
     logs := ar.logs })

/-- The polling loop across a list of cycle inputs, recording every
intermediate state and cycle output. -/
def runCycles (st : VaultState) : List CycleInput → List (VaultState × CycleOutput)
  | [] => []
  | inp :: inps =>
    let p := runCycle st inp
    p :: runCycles p.1 inps

/-! ### Frontmatter parsing and the plan-creation pipeline
(`PlanCreator`) -/

/-- `re.search(rf'{key}\s*(.+)', content)` for a literal `key` ending in
`:`: the first position anywhere in the document where the literal
matches and the `\s*(.+)` tail succeeds, with the captured group
stripped. -/
def searchKeyValue (pat : Str) : Str → Option Str
  | [] => none
  | c :: cs =>
    if pat.isPrefixOf (c :: cs) then
      match matchFieldValue ((c :: cs).drop pat.length) with
      | some v => some (pyStrip v)
      | none => searchKeyValue pat cs
    else
      searchKeyValue pat cs

/-- The lazy group of `# Email Content\s*\n(.*?)(?:^---|\n# |\Z)`: stop
at a line start followed by `---`, at the literal `\n# `, or at the end
of text. -/
def emailBodyUpTo (als : Bool) : Str → Str
  | [] => []
  | c :: cs =>
    if als && "---".toList.isPrefixOf (c :: cs) then
      []
    else if "\n# ".toList.isPrefixOf (c :: cs) then
      []
    else
      c :: emailBodyUpTo (c = '\n') cs

/-- Scan for `# Email Content` followed by a successful `\s*\n`, with the
lazily captured body stripped. -/
def findEmailContentBody : Str → Option Str
  | [] => none
  | c :: cs =>
    if "# Email Content".toList.isPrefixOf (c :: cs) then
      match matchWsNewline ((c :: cs).drop "# Email Content".toList.length) with
      | some r => some (pyStrip (emailBodyUpTo true r))
      | none => findEmailContentBody cs
    else
      findEmailContentBody cs

/-- `PlanCreator._parse_email_frontmatter`: six unanchored key searches
plus the body search; `None` when nothing at all matched (the dict is
falsy exactly when empty). -/
def parseEmailFrontmatter (content : Str) : Option EmailData :=
  let d : EmailData :=
    { fromAddr := searchKeyValue "from:".toList content
      toAddr := searchKeyValue "to:".toList content
      subject := searchKeyValue "subject:".toList content
      received := searchKeyValue "received:".toList content
      priority := searchKeyValue "priority:".toList content
      messageId := searchKeyValue "message_id:".toList content
      body := findEmailContentBody content }
  if d.entries.isEmpty then none else some d

/-- The header region in the SPEC's sense (claim C8): the lines strictly
between the first two `---` lines of the document. -/
def specHeaderRegion (content : Str) : List Str :=
  (((content.splitOn '\n').dropWhile fun l => l ≠ "---".toList).drop 1).takeWhile
    fun l => l ≠ "---".toList

/-- Python `.strip(ch)` for a single character. -/
def stripCharBoth (ch : Char) (s : Str) : Str :=
  ((s.dropWhile fun c => c = ch).reverse.dropWhile fun c => c = ch).reverse

/-- `email_data.get('from', '').split('<')[-1].strip('>').strip()`: the
part after the last `<`, with `>` and whitespace trimmed. -/
def replyToAddress (fromAddr : Str) : Str :=
  pyStrip (stripCharBoth '>' ((fromAddr.reverse.takeWhile fun c => c ≠ '<').reverse))

/-- `PlanCreator._generate_suggested_reply`: the four keyword-triggered
templates, in source order. -/
def generateSuggestedReply (d : EmailData) : Str :=
  let subject := toLowerChars (d.subject.getD [])
  let body := d.body.getD []
  if containsSeq "greeting".toList subject ||
      containsSeq "how are you".toList (toLowerChars body) then
    "Hi,\n\nThank you for your message! I\x27m doing well, thank you.\n\nHope you\x27re doing great too.\n\nBest regards".toList
  else if containsSeq "invoice".toList subject ||
      containsSeq "payment".toList subject then
    "Dear Valued Client,\n\nThank you for your inquiry regarding the invoice.\n\nI will process your request and send the invoice shortly.\n\nBest regards".toList
  else if containsSeq "urgent".toList subject ||
      containsSeq "asap".toList (toLowerChars body) then
    "Dear Sender,\n\nI received your urgent message and will respond as soon as possible.\n\nThank you for your patience.\n\nBest regards".toList
  else
    "Dear Sender,\n\nThank you for your email. I have received your message and will respond shortly.\n\nBest regards".toList

/-- `email_data.get('message_id', timestamp)[:8]`. -/
def planId (d : EmailData) (timestamp : Str) : Str :=
  (d.messageId.getD timestamp).take 8

/-- The Plan.md document written by `PlanCreator._create_plan`
(`datetime.now().isoformat()` enters as the parameter `nowIso`). -/
def buildPlanContent (d : EmailData) (needsApproval : Bool) (nowIso timestamp : Str) : Str :=
  "---\ncreated: ".toList ++ nowIso ++
  "\nstatus: in_progress\nobjective: Process email and send reply\nrelated_to: EMAIL_".toList ++
  planId d timestamp ++
  ".md\napproval_required: ".toList ++
  (if needsApproval then "true".toList else "false".toList) ++
  "\n---\n\n# Plan: Process Email - ".toList ++ d.subject.getD "No Subject".toList ++
  "\n\n## Objective\nProcess incoming email and send appropriate reply.\n\n## Email Details\n\n| Field | Value |\n|-------|-------|\n| From | ".toList ++
  d.fromAddr.getD "Unknown".toList ++
  " |\n| To | ".toList ++ d.toAddr.getD "N/A".toList ++
  " |\n| Subject | ".toList ++ d.subject.getD "No Subject".toList ++
  " |\n| Received | ".toList ++ d.received.getD "Unknown".toList ++
  " |\n| Priority | ".toList ++ d.priority.getD "normal".toList ++
  " |\n\n## Steps\n\n- [x] **Step 1: Read and analyze email**\n  - Email received and parsed\n  - Priority determined: ".toList ++
  d.priority.getD "normal".toList ++
  "\n\n- [ ] **Step 2: Draft reply**\n  - Compose appropriate response\n  - Review for tone and accuracy\n\n- [ ] **Step 3: ".toList ++
  (if needsApproval then "Request approval".toList else "Send email".toList) ++
  "**\n  ".toList ++
  (if needsApproval then "- Approval request created in /Pending_Approval/".toList
   else "- Send reply via Email MCP".toList) ++
  "\n\n- [ ] **Step 4: Log and archive**\n  - Log action in /Logs/\n  - Move email to /Done/\n\n## Notes\n\nAuto-generated plan by Plan Creator v0.1\n\n---\n*Generated automatically by AI Employee Plan Creator*\n".toList

/-- The approval-request document written by
`PlanCreator._create_approval_request`. -/
def buildApprovalContent (d : EmailData) (nowIso expiresIso : Str) : Str :=
  "---\ntype: approval_request\naction: email_send\nto: ".toList ++
  replyToAddress (d.fromAddr.getD []) ++
  "\nsubject: Re: ".toList ++ d.subject.getD "No Subject".toList ++
  "\ncreated: ".toList ++ nowIso ++
  "\nexpires: ".toList ++ expiresIso ++
  "\nstatus: pending\npriority: ".toList ++ d.priority.getD "normal".toList ++
  "\n---\n\n# Approval Required: Send Email Reply\n\n## Email Details\n\n| Field | Value |\n|-------|-------|\n| To | ".toList ++
  d.fromAddr.getD "Unknown".toList ++
  " |\n| Subject | Re: ".toList ++ d.subject.getD "No Subject".toList ++
  " |\n| Original Priority | ".toList ++ d.priority.getD "normal".toList ++
  " |\n\n## Suggested Reply\n\n".toList ++
  generateSuggestedReply d ++
  "\n\n## Why Approval Required\n\nThis email requires human approval before sending because:\n- Replying to external contact\n- Ensure response is appropriate and accurate\n\n---\n\n## To Approve\n\nMove this file to `/Approved` folder.\n\n## To Reject\n\nMove this file to `/Rejected` folder and add a comment.\n\n---\n*Generated automatically by AI Employee Plan Creator*\n".toList

/-- Result of `PlanCreator.process_email` on a parseable item. -/
structure ProcessResult where
  planFilename : Str
  planContent : Str
  approval : Option (Str × Str)
  needsApproval : Bool

/-- `PlanCreator.process_email`: parse, decide, create the plan, and
create the approval request exactly when the decision engine fires.  The
two `datetime.now()`-derived strings enter as parameters. -/
def processEmail (content : Str) (nowIso expiresIso timestamp : Str) :
    Option ProcessResult :=
  match parseEmailFrontmatter content with
  | none => none
  | some d =>
    let needs := checkApprovalNeeded d
    some
      { planFilename := "PLAN_email_".toList ++ planId d timestamp ++ ".md".toList
        planContent := buildPlanContent d needs nowIso timestamp
        approval :=
          if needs then
            some ("APPROVAL_email_reply_".toList ++ planId d timestamp ++ ".md".toList,
              buildApprovalContent d nowIso expiresIso)
          else
            none
        needsApproval := needs }

/-! ### The dashboard synchroniser (`Orchestrator.update_dashboard`)

The three substitutions are modelled as character scanners with exactly
the semantics of CPython `re.sub` for the three concrete patterns
(left-to-right scan, non-overlapping matches, greedy `.*` and `\d+`,
`.` not matching a newline). -/

/-- The literal prefix of `last_updated: .*\n`. -/
def luLit : Str := "last_updated: ".toList

/-- The literal prefix of `\| \*\*Pending Items\*\* \| \d+ \|`. -/
def pendLit : Str := "| **Pending Items** | ".toList

/-- The literal prefix of `\| \*\*Awaiting Approval\*\* \| \d+ \|`. -/
def apprLit : Str := "| **Awaiting Approval** | ".toList

/-- The guard substring `'| **Pending Items** |' in content`. -/
def pendGuard : Str := "| **Pending Items** |".toList

/-- The guard substring `'| **Awaiting Approval** |' in content`. -/
def apprGuard : Str := "| **Awaiting Approval** |".toList

/-- The character class of the regex `.`: anything but a newline. -/
def isNotNl (x : Char) : Bool := x ≠ '\n'

/-- `re.sub(r'last_updated: .*\n', f'last_updated: {ts}\n', doc)`: at
each occurrence of the literal followed (at or after it) by a newline,
replace through the first such newline and continue after it. -/
def subLU (ts : Str) : Str → Str
  | [] => []
  | c :: cs =>
    if luLit.isPrefixOf (c :: cs) && ((c :: cs).drop luLit.length).contains '\n' then
      luLit ++ ts ++
        '\n' :: subLU ts ((((c :: cs).drop luLit.length).dropWhile isNotNl).tail)
    else
      c :: subLU ts cs
termination_by s => s.length
decreasing_by
  all_goals simp_wf
  have h1 : ((c :: cs).drop luLit.length).length = cs.length + 1 - luLit.length := by
    rw [List.length_drop, List.length_cons]
  have h2 : (((c :: cs).drop luLit.length).dropWhile isNotNl).length ≤
      ((c :: cs).drop luLit.length).length :=
    (List.dropWhile_sublist isNotNl).length_le
  have h3 := List.length_tail (((c :: cs).drop luLit.length).dropWhile isNotNl)
  have h4 : luLit.length = 14 := by decide
  omega

/-- Match `\d+ \|` (the tail of the count-row patterns) at the head of
`r1`: at least one digit, greedily, then the literal ` |`. -/
def matchCountTail (r1 : Str) : Option Str :=
  if (r1.takeWhile Char.isDigit).isEmpty then
    none
  else if (' ' :: '|' :: []).isPrefixOf (r1.dropWhile Char.isDigit) then
    some ((r1.dropWhile Char.isDigit).drop 2)
  else
    none

/-- Match a full count-row pattern `lit ++ digits ++ " |"` at the head of
`s`, returning the remainder. -/
def matchCountAt (lit : Str) (s : Str) : Option Str :=
  if lit.isPrefixOf s then matchCountTail (s.drop lit.length) else none

/-- `re.sub` for a count-row pattern with replacement count `n`:
left-to-right scan, replacing each non-overlapping match by
`lit ++ str(n) ++ " |"` and continuing after it. -/
def subCount (lit : Str) (n : Nat) : Str → Str
  | [] => []
  | c :: cs =>
    match h : matchCountAt lit (c :: cs) with
    | some rest => lit ++ natDigits n ++ ' ' :: '|' :: subCount lit n rest
    | none => c :: subCount lit n cs
termination_by s => s.length
decreasing_by
  all_goals simp_wf
  unfold matchCountAt matchCountTail at h
  by_cases h1 : lit.isPrefixOf (c :: cs) = true
  · rw [if_pos h1] at h
    by_cases h2 : (((c :: cs).drop lit.length).takeWhile Char.isDigit).isEmpty = true
    · rw [if_pos h2] at h
      cases h
    · rw [if_neg h2] at h
      by_cases h3 : (' ' :: '|' :: []).isPrefixOf
          (((c :: cs).drop lit.length).dropWhile Char.isDigit) = true
      · rw [if_pos h3] at h
        injection h with h
        subst h
        have h4 := congrArg List.length
          (List.takeWhile_append_dropWhile Char.isDigit
            ((c :: cs).drop lit.length))
        rw [List.length_append] at h4
        have h5 : 1 ≤ (((c :: cs).drop lit.length).takeWhile Char.isDigit).length := by
          cases hx : ((c :: cs).drop lit.length).takeWhile Char.isDigit with
          | nil => rw [hx] at h2; exact absurd rfl h2
          | cons a tl => simp [hx]
        have h6 := List.length_drop 2
          (((c :: cs).drop lit.length).dropWhile Char.isDigit)
        have h7 := List.length_drop lit.length (c :: cs)
        have h8 : (c :: cs).length = cs.length + 1 := List.length_cons c cs
        omega
      · rw [if_neg h3] at h
        cases h
  · rw [if_neg h1] at h
    cases h

/-- `Orchestrator.update_dashboard` on an existing dashboard document:
rewrite every `last_updated: ...` line tail to the current timestamp,
then — each guarded by the substring tests of the source — every
`| **Pending Items** | N |` and `| **Awaiting Approval** | N |` cell. -/
def updateDashboard (np na : Nat) (ts : Str) (doc : Str) : Str :=
  let d1 := subLU ts doc
  let d2 := if containsSeq pendGuard d1 then subCount pendLit np d1 else d1
  let d3 := if containsSeq apprGuard d2 then subCount apprLit na d2 else d2
  d3

/-- Effect of the `last_updated` substitution on one newline-terminated
line (given without its newline): everything from the first occurrence of
the literal onward is replaced by the literal and the timestamp. -/
def luLineFix (ts : Str) : Str → Str
  | [] => []
  | c :: cs =>
    if luLit.isPrefixOf (c :: cs) then luLit ++ ts else c :: luLineFix ts cs

/-- Join lines with newlines (left inverse of splitting at `'\n'`). -/
def joinLines (ls : List Str) : Str := joinSep ['\n'] ls

/-- Map a function over every newline-terminated line, i.e. over all but
the last element of the line split. -/
def mapInit (f : Str → Str) : List Str → List Str
  | [] => []
  | [x] => [x]
  | x :: y :: xs => f x :: mapInit f (y :: xs)

/-- A line the dashboard rewrite leaves alone: it contains neither the
`last_updated: ` literal nor either count-row guard substring. -/
def untouchedLine (l : Str) : Bool :=
  !containsSeq luLit l && !containsSeq pendGuard l && !containsSeq apprGuard l

/-! ### Theorems -/

/-- Helper: a non-empty list is not `isEmpty`. -/
theorem isEmpty_false_of_ne_nil {l : Str} (h : l ≠ []) : l.isEmpty = false := by
  cases l with
  | nil => exact absurd rfl h
  | cons a t => rfl

/-- Bridge: `checkApprovalNeeded` is the ordered disjunction of its three
rules. -/
theorem check_eq_three_rules (d : EmailData) :
    checkApprovalNeeded d =
      ((!(d.toAddr.getD []).isEmpty &&
        !(knownContacts.any fun dom => containsSeq dom (d.toAddr.getD []))) ||
       (containsSeq "attachments".toList (pyDictRepr d) ||
        sensitiveKeywords.any fun kw =>
          containsSeq kw (toLowerChars (d.subject.getD [])) ||
          containsSeq kw (toLowerChars (d.body.getD [])))) := by
  show (if ((!(d.toAddr.getD []).isEmpty &&
        !(knownContacts.any fun dom => containsSeq dom (d.toAddr.getD []))) = true) then true
      else if (containsSeq "attachments".toList (pyDictRepr d) = true) then true
      else if ((sensitiveKeywords.any fun kw =>
          containsSeq kw (toLowerChars (d.subject.getD [])) ||
          containsSeq kw (toLowerChars (d.body.getD []))) = true) then true else false) = _
  cases (!(d.toAddr.getD []).isEmpty &&
      !(knownContacts.any fun dom => containsSeq dom (d.toAddr.getD []))) <;>
    cases containsSeq "attachments".toList (pyDictRepr d) <;>
      cases (sensitiveKeywords.any fun kw =>
          containsSeq kw (toLowerChars (d.subject.getD [])) ||
          containsSeq kw (toLowerChars (d.body.getD []))) <;> rfl

/-- C1: any sensitive keyword occurring in the lower-cased subject or body
forces `checkApprovalNeeded` to return `true`, regardless of the
recipient's domain. -/
theorem sensitive_keyword_forces_approval (d : EmailData)
    (h : ∃ kw ∈ sensitiveKeywords,
        containsSeq kw (toLowerChars (d.subject.getD [])) = true ∨
        containsSeq kw (toLowerChars (d.body.getD [])) = true) :
    checkApprovalNeeded d = true := by
  obtain ⟨kw, hmem, hkw⟩ := h
  have hany : (sensitiveKeywords.any fun kw =>
      containsSeq kw (toLowerChars (d.subject.getD [])) ||
      containsSeq kw (toLowerChars (d.body.getD []))) = true :=
    List.any_eq_true.mpr ⟨kw, hmem, by rcases hkw with h1 | h1 <;> simp [h1]⟩
  rw [check_eq_three_rules, hany]
  simp

/-- C1 witness: a concrete item whose subject contains "Invoice". -/
theorem sensitive_keyword_forces_approval_witness :
    checkApprovalNeeded
      ⟨none, some "alice@yourcompany.com".toList, some "Invoice due".toList,
       none, none, none, none⟩ = true :=
  sensitive_keyword_forces_approval _
    ⟨"invoice".toList, by decide, Or.inl (by decide)⟩

/-- C2 counterexample: the recipient `bob@yourcompany.com.evil.net` has
domain `yourcompany.com.evil.net`, which is not on the allow-list, yet
`checkApprovalNeeded` returns `false`, because the code tests the
allow-list entries as free substrings of the recipient rather than
comparing the recipient's domain. -/
theorem external_domain_not_flagged :
    specRecipientDomain "bob@yourcompany.com.evil.net".toList ∉ specAllowedDomains ∧
    "bob@yourcompany.com.evil.net".toList ≠ ([] : Str) ∧
    checkApprovalNeeded
      ⟨none, some "bob@yourcompany.com.evil.net".toList, none, none, none,
       none, none⟩ = false := by
  refine ⟨by decide, by decide, by decide⟩

/-- C2 amended: a non-empty recipient that does not contain any of the
configured allow-list entries as a substring forces approval. -/
theorem unknown_recipient_requires_approval (d : EmailData)
    (hne : d.toAddr.getD [] ≠ [])
    (h : ∀ dom ∈ knownContacts, containsSeq dom (d.toAddr.getD []) = false) :
    checkApprovalNeeded d = true := by
  have hany : (knownContacts.any fun dom => containsSeq dom (d.toAddr.getD [])) = false := by
    rw [List.any_eq_false]
    intro dom hdom
    simp [h dom hdom]
  rw [check_eq_three_rules, hany, isEmpty_false_of_ne_nil hne]
  rfl

/-- C2 amended witness: a recipient at a completely unknown domain. -/
theorem unknown_recipient_requires_approval_witness :
    checkApprovalNeeded
      ⟨none, some "eve@other.org".toList, none, none, none, none, none⟩ = true :=
  unknown_recipient_requires_approval _ (by decide) (by decide)

/-- C3 counterexample: recipient on the allow-list, no sensitive keyword
in subject or body, yet approval is required, because the code contains a
third rule checking for the string `attachments` in `str(email_data)`
(here triggered by the word appearing in the subject). -/
theorem attachments_rule_breaks_two_rule_policy :
    specRecipientDomain "alice@yourcompany.com".toList ∈ specAllowedDomains ∧
    (∀ kw ∈ sensitiveKeywords,
      containsSeq kw (toLowerChars "about attachments".toList) = false) ∧
    checkApprovalNeeded
      ⟨none, some "alice@yourcompany.com".toList, some "about attachments".toList,
       none, none, none, none⟩ = true := by
  refine ⟨by decide, by decide, by decide⟩

/-- C3 amended: the decision is the ordered disjunction of exactly three
rules — unknown-recipient check, `attachments`-mention check on the dict
repr, sensitive-keyword check — and without any rule firing the decision
is `false`. -/
theorem approval_policy_characterisation (d : EmailData) :
    checkApprovalNeeded d = false ↔
      (d.toAddr.getD [] = [] ∨
        ∃ dom ∈ knownContacts, containsSeq dom (d.toAddr.getD []) = true) ∧
      containsSeq "attachments".toList (pyDictRepr d) = false ∧
      ∀ kw ∈ sensitiveKeywords,
        containsSeq kw (toLowerChars (d.subject.getD [])) = false ∧
        containsSeq kw (toLowerChars (d.body.getD [])) = false := by
  rw [check_eq_three_rules]
  simp only [Bool.or_eq_false_iff, Bool.and_eq_false_iff, Bool.not_eq_false',
    List.isEmpty_iff, List.any_eq_false, List.any_eq_true, Bool.or_eq_true]
  constructor
  · rintro ⟨h1, h2, h3⟩
    refine ⟨?_, h2, fun kw hkw => ?_⟩
    · rcases h1 with h1 | h1
      · exact Or.inl h1
      · exact Or.inr (by simpa using List.any_eq_true.mp (by simpa using h1))
    · have h4 := h3 kw hkw
      constructor
      · cases hx : containsSeq kw (toLowerChars (d.subject.getD []))
        · rfl
        · exact absurd (Or.inl hx) h4
      · cases hx : containsSeq kw (toLowerChars (d.body.getD []))
        · rfl
        · exact absurd (Or.inr hx) h4
  · rintro ⟨h1, h2, h3⟩
    refine ⟨?_, h2, fun kw hkw => ?_⟩
    · rcases h1 with h1 | ⟨dom, hdom, hc⟩
      · exact Or.inl h1
      · exact Or.inr (by simpa using List.any_eq_true.mpr ⟨dom, hdom, by simpa using hc⟩)
    · rintro (hx | hx)
      · exact absurd hx (by simp [(h3 kw hkw).1])
      · exact absurd hx (by simp [(h3 kw hkw).2])

/-- Helper: a name already in the dedup set never appears in the pending
list. -/
theorem not_mem_getPending_map (pr : List Str) (ls : List (Str × Nat)) (n : Str)
    (h : n ∈ pr) : n ∉ (getPendingItems pr ls).map Prod.fst := by
  intro hmem
  obtain ⟨⟨m, t⟩, hmem2, heq⟩ := List.mem_map.mp hmem
  have hmem3 : (m, t) ∈ ls.filter fun f => !(pr.contains f.1) :=
    (List.mergeSort_perm _ _).mem_iff.mp hmem2
  have hp := List.of_mem_filter hmem3
  simp at hp
  have hmn : m = n := heq
  rw [hmn] at hp
  exact hp h

/-- Helper: the batch submitted to the agent never contains an
already-processed name. -/
theorem not_mem_submitted (pr : List Str) (inp : CycleInput) (n : Str)
    (h : n ∈ pr) : n ∉ (processNeedsAction pr inp).2.getD [] := by
  unfold processNeedsAction
  by_cases he : (getPendingItems pr inp.listing).isEmpty = true
  · simp [he]
  · by_cases hq : inp.qwenOk = true <;>
      simpa [he, hq] using not_mem_getPending_map pr inp.listing n h

/-- Helper: the dedup set only grows across `processNeedsAction`. -/
theorem mem_processNeedsAction_fst (pr : List Str) (inp : CycleInput) (n : Str)
    (h : n ∈ pr) : n ∈ (processNeedsAction pr inp).1 := by
  unfold processNeedsAction
  by_cases he : (getPendingItems pr inp.listing).isEmpty = true
  · simpa [he] using h
  · by_cases hq : inp.qwenOk = true <;> simp [he, hq, h]

/-- Helper: the dedup set only grows across a full cycle. -/
theorem mem_runCycle_processed (st : VaultState) (inp : CycleInput) (n : Str)
    (h : n ∈ st.processedFiles) : n ∈ (runCycle st inp).1.processedFiles := by
  unfold runCycle
  exact List.mem_append_left _ (mem_processNeedsAction_fst _ _ _ h)

/-- C5: once a name is in the in-memory dedup set, no batch submitted to
the reasoning agent in any subsequent polling cycle contains that name,
whatever the directory listings, agent results and dispatch outcomes of
those cycles are. -/
theorem dedup_never_resubmitted (st : VaultState) (n : Str)
    (h : n ∈ st.processedFiles) (inps : List CycleInput) :
    ∀ p ∈ runCycles st inps, n ∉ p.2.submittedBatch := by
  induction inps generalizing st with
  | nil => intro p hp; cases hp
  | cons inp inps ih =>
    intro p hp
    rcases List.mem_cons.mp hp with hp | hp
    · have : p.2.submittedBatch = (processNeedsAction st.processedFiles inp).2.getD [] := by
        rw [hp]; rfl
      rw [this]
      exact not_mem_submitted _ _ _ h
    · exact ih (runCycle st inp).1 (mem_runCycle_processed st inp n h) p hp

/-- C5 witness: with `a.md` already processed, a cycle listing `a.md` and
`b.md` submits only `b.md`. -/
theorem dedup_never_resubmitted_witness :
    "a.md".toList ∈ ["a.md".toList] ∧
    ∀ p ∈ runCycles ⟨["a.md".toList], [], []⟩
        [⟨[("a.md".toList, 5), ("b.md".toList, 3)], true, [],
          fun _ => ExecOutcome.timeout, []⟩],
      "a.md".toList ∉ p.2.submittedBatch :=
  ⟨by decide, dedup_never_resubmitted _ _ (by decide) _⟩

/-- Helper: an `email_send` item with a missing `to` or `subject` field
is skipped wholesale: no dispatch, no log record, no move. -/
theorem item_missing_fields (now c : Str) (exec : ExecOutcome)
    (ha : extractField c "action".toList = "email_send".toList)
    (hm : extractField c "to".toList = [] ∨ extractField c "subject".toList = []) :
    processApprovedItem now c exec = ⟨none, [], false⟩ := by
  simp only [processApprovedItem]
  rw [ha]
  rcases hm with hm | hm <;> rw [hm] <;> simp

/-- Helper: such an item stays in the `Approved` directory across
`process_approved`. -/
theorem bad_item_stays (now : Str) (exec : Str → ExecOutcome)
    (dir : List (Str × Str)) (n c : Str) (hmem : (n, c) ∈ dir)
    (ha : extractField c "action".toList = "email_send".toList)
    (hm : extractField c "to".toList = [] ∨ extractField c "subject".toList = []) :
    (n, c) ∈ (processApprovedDir now exec dir).remaining := by
  induction dir with
  | nil => cases hmem
  | cons hd tl ih =>
    rcases List.mem_cons.mp hmem with heq | hmem2
    · subst heq
      simp only [processApprovedDir]
      rw [item_missing_fields now c (exec n) ha hm]
      simp
    · obtain ⟨hn, hc⟩ := hd
      simp only [processApprovedDir]
      exact List.mem_append_right _ (ih hmem2)

/-- Helper: no dispatch attempt ever carries the content of such an
item. -/
theorem bad_item_no_send (now : Str) (exec : Str → ExecOutcome)
    (dir : List (Str × Str)) (c : Str)
    (ha : extractField c "action".toList = "email_send".toList)
    (hm : extractField c "to".toList = [] ∨ extractField c "subject".toList = []) :
    ∀ s ∈ (processApprovedDir now exec dir).sends, s.2.1 ≠ c := by
  induction dir with
  | nil => intro s hs; cases hs
  | cons hd tl ih =>
    obtain ⟨hn, hc⟩ := hd
    intro s hs
    unfold processApprovedDir at hs
    rcases List.mem_append.mp hs with hs | hs
    · by_cases hcc : hc = c
      · subst hcc
        rw [item_missing_fields now hc (exec hn) ha hm] at hs
        cases hs
      · revert hs
        cases hsend : (processApprovedItem now hc (exec hn)).send with
        | none => intro hs; cases hs
        | some a =>
          intro hs
          rcases List.mem_singleton.mp hs with rfl
          simpa using hcc
    · exact ih s hs

/-- C10: an Approved-stage item tagged `email_send` whose extracted `to`
or `subject` field is empty is never dispatched, is never moved to
`Done`, remains in the `Approved` directory, and is re-examined by every
subsequent polling cycle. -/
theorem missing_fields_item_never_leaves_approved (st : VaultState) (n c : Str)
    (hmem : (n, c) ∈ st.approvedDir)
    (ha : extractField c "action".toList = "email_send".toList)
    (hm : extractField c "to".toList = [] ∨ extractField c "subject".toList = [])
    (inps : List CycleInput) :
    ∀ p ∈ runCycles st inps,
      (n, c) ∈ p.1.approvedDir ∧ n ∈ p.2.approvedSeen ∧
      ∀ s ∈ p.2.sends, s.2.1 ≠ c := by
  induction inps generalizing st with
  | nil => intro p hp; cases hp
  | cons inp inps ih =>
    intro p hp
    have hnow : (n, c) ∈ st.approvedDir ++ inp.newApproved :=
      List.mem_append_left _ hmem
    rcases List.mem_cons.mp hp with hp | hp
    · subst hp
      refine ⟨bad_item_stays _ _ _ _ _ hnow ha hm, ?_, ?_⟩
      · exact List.mem_map.mpr ⟨(n, c), hnow, rfl⟩
      · exact bad_item_no_send _ _ _ _ ha hm
    · exact ih (runCycle st inp).1 (bad_item_stays _ _ _ _ _ hnow ha hm) p hp

/-- C10 witness: a concrete `email_send` approval file without a `to`
field survives a cycle in `Approved` untouched. -/
theorem missing_fields_item_never_leaves_approved_witness :
    ("x.md".toList, "---\naction: email_send\nsubject: Hi\n---\n".toList) ∈
      ([("x.md".toList, "---\naction: email_send\nsubject: Hi\n---\n".toList)] :
        List (Str × Str)) ∧
    extractField "---\naction: email_send\nsubject: Hi\n---\n".toList "action".toList =
      "email_send".toList ∧
    extractField "---\naction: email_send\nsubject: Hi\n---\n".toList "to".toList = [] ∧
    ∀ p ∈ runCycles
        ⟨[], [("x.md".toList, "---\naction: email_send\nsubject: Hi\n---\n".toList)], []⟩
        [⟨[], false, [], fun _ => ExecOutcome.timeout, []⟩],
      ("x.md".toList, "---\naction: email_send\nsubject: Hi\n---\n".toList) ∈
          p.1.approvedDir ∧
        "x.md".toList ∈ p.2.approvedSeen ∧
        ∀ s ∈ p.2.sends, s.2.1 ≠ "---\naction: email_send\nsubject: Hi\n---\n".toList :=
  ⟨by decide, by decide, by decide,
    missing_fields_item_never_leaves_approved _ _ _ (by decide) (by decide)
      (Or.inl (by decide)) _⟩

/-- C4 counterexample: for the Approved `email_send` item missing its
`to` field — one of the claim's dispatch-failure cases — the orchestrator
appends no log record at all (so in particular no `failed` one) and does
NOT move the file to `Done`. -/
theorem dispatch_failure_claim_counterexample :
    (processApprovedItem [] "---\naction: email_send\nsubject: Hi\n---\n".toList
        ExecOutcome.timeout).logs = [] ∧
    (processApprovedItem [] "---\naction: email_send\nsubject: Hi\n---\n".toList
        ExecOutcome.timeout).moved = false := by
  refine ⟨by decide, by decide⟩

/-- C4 amended: when the dispatch subprocess fails (non-zero exit,
missing success marker, timeout or exception) the orchestrator appends NO
log record — failure is only reported to the diagnostic logger — but
still moves the file to `Done`; an item with a missing `to` or `subject`
field is instead skipped wholesale and stays in `Approved`. -/
theorem dispatch_failure_behaviour (now c : Str) (exec : ExecOutcome)
    (ha : extractField c "action".toList = "email_send".toList) :
    (extractField c "to".toList = [] ∨ extractField c "subject".toList = [] →
      processApprovedItem now c exec = ⟨none, [], false⟩) ∧
    (extractField c "to".toList ≠ [] → extractField c "subject".toList ≠ [] →
      sendEmailViaScript exec ≠ SendStatus.sent →
      (processApprovedItem now c exec).logs = [] ∧
      (processApprovedItem now c exec).moved = true) := by
  constructor
  · intro hm
    exact item_missing_fields now c exec ha hm
  · intro ht hs hfail
    cases hx : sendEmailViaScript exec with
    | sent => exact absurd hx hfail
    | sendError m =>
      simp only [processApprovedItem]
      rw [ha, isEmpty_false_of_ne_nil ht, isEmpty_false_of_ne_nil hs, hx]
      simp

/-- C4 amended witness: a complete approval file whose dispatch
subprocess exits with code 1. -/
theorem dispatch_failure_behaviour_witness :
    extractField
        "---\naction: email_send\nto: a@b.co\nsubject: Hi\n---\n".toList
        "action".toList = "email_send".toList ∧
    ((extractField "---\naction: email_send\nto: a@b.co\nsubject: Hi\n---\n".toList
          "to".toList = [] ∨
        extractField "---\naction: email_send\nto: a@b.co\nsubject: Hi\n---\n".toList
          "subject".toList = [] →
      processApprovedItem [] "---\naction: email_send\nto: a@b.co\nsubject: Hi\n---\n".toList
          (ExecOutcome.completed 1 [] []) = ⟨none, [], false⟩) ∧
     (extractField "---\naction: email_send\nto: a@b.co\nsubject: Hi\n---\n".toList
          "to".toList ≠ [] →
      extractField "---\naction: email_send\nto: a@b.co\nsubject: Hi\n---\n".toList
          "subject".toList ≠ [] →
      sendEmailViaScript (ExecOutcome.completed 1 [] []) ≠ SendStatus.sent →
      (processApprovedItem []
          "---\naction: email_send\nto: a@b.co\nsubject: Hi\n---\n".toList
          (ExecOutcome.completed 1 [] [])).logs = [] ∧
      (processApprovedItem []
          "---\naction: email_send\nto: a@b.co\nsubject: Hi\n---\n".toList
          (ExecOutcome.completed 1 [] [])).moved = true)) :=
  ⟨by decide, dispatch_failure_behaviour _ _ _ (by decide)⟩

/-- Helper: `containsSeq` agrees with list-infix. -/
theorem containsSeq_infix_iff (n : Str) (h : Str) : containsSeq n h = true ↔ n <:+: h := by
  induction h with
  | nil => simp [containsSeq, List.isEmpty_iff]
  | cons c cs ih => simp [containsSeq, List.infix_cons_iff, ih, List.isPrefixOf_iff_prefix]

/-- Helper: a substring of the left part is a substring of the whole. -/
theorem containsSeq_append_left (n a b : Str) (h : containsSeq n a = true) :
    containsSeq n (a ++ b) = true := by
  rw [containsSeq_infix_iff] at h ⊢
  exact h.trans (List.prefix_append a b).isInfix

/-- Helper: a substring of the right part is a substring of the whole. -/
theorem containsSeq_append_right (n a b : Str) (h : containsSeq n b = true) :
    containsSeq n (a ++ b) = true := by
  rw [containsSeq_infix_iff] at h ⊢
  exact h.trans (List.suffix_append a b).isInfix

/-- Helper: a first-character mismatch refutes `isPrefixOf`. -/
theorem isPrefixOf_cons_eq_false {p0 c : Char} (pr cs : Str) (h : p0 ≠ c) :
    (p0 :: pr).isPrefixOf (c :: cs) = false := by
  simp [List.isPrefixOf_cons₂, h]

/-- Helper: the key search skips any prefix free of the key's first
character. -/
theorem searchKeyValue_cons_skip (p0 c : Char) (pr cs : Str) (hc : p0 ≠ c) :
    searchKeyValue (p0 :: pr) (c :: cs) = searchKeyValue (p0 :: pr) cs := by
  conv_lhs => rw [searchKeyValue]
  rw [isPrefixOf_cons_eq_false _ _ hc]
  simp only [Bool.false_eq_true, if_false]

/-- Helper: the key search skips any prefix free of the key's first
character. -/
theorem searchKeyValue_append_skip (pat pre t : Str) (hne : pat ≠ [])
    (h : ∀ c ∈ pre, pat.head? ≠ some c) :
    searchKeyValue pat (pre ++ t) = searchKeyValue pat t := by
  obtain ⟨p0, pr, rfl⟩ : ∃ p0 pr, pat = p0 :: pr := by
    cases pat with
    | nil => exact absurd rfl hne
    | cons a b => exact ⟨a, b, rfl⟩
  induction pre with
  | nil => rfl
  | cons c cs ih =>
    have hc : p0 ≠ c := by
      intro he
      exact h c (List.mem_cons_self c cs) (by rw [he]; rfl)
    rw [List.cons_append, searchKeyValue_cons_skip _ _ _ _ hc]
    exact ih fun x hx => h x (List.mem_cons_of_mem _ hx)

/-- Helper: single-step skip for the body search. -/
theorem findEmailContentBody_cons_skip (c : Char) (cs : Str) (hc : ('#' : Char) ≠ c) :
    findEmailContentBody (c :: cs) = findEmailContentBody cs := by
  conv_lhs => rw [findEmailContentBody]
  have hlit : "# Email Content".toList = '#' :: " Email Content".toList := rfl
  rw [hlit, isPrefixOf_cons_eq_false _ _ hc]
  simp only [Bool.false_eq_true, if_false]

/-- Helper: the body search skips any `#`-free prefix. -/
theorem findEmailContentBody_append_skip (pre t : Str) (h : '#' ∉ pre) :
    findEmailContentBody (pre ++ t) = findEmailContentBody t := by
  induction pre with
  | nil => rfl
  | cons c cs ih =>
    have hc : ('#' : Char) ≠ c := fun he => h (he ▸ List.mem_cons_self c cs)
    rw [List.cons_append, findEmailContentBody_cons_skip _ _ hc]
    exact ih fun hx => h (List.mem_cons_of_mem _ hx)

/-- C8 counterexample: in a document whose frontmatter region (between
the first two `---` lines) has no `to` field, a `to: ...` line sitting in
the body is returned as the header field, by both
`_parse_email_frontmatter` and `_extract_field`: the searches are
document-wide, not limited to the header region. -/
theorem body_key_returned_as_header_field :
    (∀ l ∈ specHeaderRegion "---\nsubject: Greetings\n---\n\nto: eve@evil.example\n".toList,
      ¬ "to:".toList.isPrefixOf l = true) ∧
    Option.bind
        (parseEmailFrontmatter "---\nsubject: Greetings\n---\n\nto: eve@evil.example\n".toList)
        EmailData.toAddr = some "eve@evil.example".toList ∧
    extractField "---\nsubject: Greetings\n---\n\nto: eve@evil.example\n".toList "to".toList =
      "eve@evil.example".toList := by
  refine ⟨by decide, by decide, by decide⟩

/-- C8 amended: the parser gives the header region no special role at
all — fields are located by document-wide first-match search.  Prepending
an explicitly empty frontmatter block changes nothing: every field is
still taken from the body. -/
theorem header_region_plays_no_role (rest : Str) :
    parseEmailFrontmatter ("---\n---\n".toList ++ rest) = parseEmailFrontmatter rest := by
  unfold parseEmailFrontmatter
  rw [searchKeyValue_append_skip "from:".toList _ _ (by decide) (by decide),
    searchKeyValue_append_skip "to:".toList _ _ (by decide) (by decide),
    searchKeyValue_append_skip "subject:".toList _ _ (by decide) (by decide),
    searchKeyValue_append_skip "received:".toList _ _ (by decide) (by decide),
    searchKeyValue_append_skip "priority:".toList _ _ (by decide) (by decide),
    searchKeyValue_append_skip "message_id:".toList _ _ (by decide) (by decide),
    findEmailContentBody_append_skip _ _ (by decide)]

/-- C9: processing a parseable item creates the approval-request file
exactly when the decision engine returns `true`, and the created file
carries the frontmatter lines `action: email_send` and `status: pending`
and a `## Suggested Reply` section. -/
theorem approval_file_iff_decision (content nowIso expiresIso timestamp : Str)
    (d : EmailData) (hp : parseEmailFrontmatter content = some d) :
    ∃ r, processEmail content nowIso expiresIso timestamp = some r ∧
      r.approval.isSome = checkApprovalNeeded d ∧
      ∀ fc, r.approval = some fc →
        containsSeq "\naction: email_send\n".toList fc.2 = true ∧
        containsSeq "\nstatus: pending\n".toList fc.2 = true ∧
        containsSeq "\n## Suggested Reply\n".toList fc.2 = true := by
  refine ⟨⟨"PLAN_email_".toList ++ planId d timestamp ++ ".md".toList,
    buildPlanContent d (checkApprovalNeeded d) nowIso timestamp,
    if checkApprovalNeeded d then
      some ("APPROVAL_email_reply_".toList ++ planId d timestamp ++ ".md".toList,
        buildApprovalContent d nowIso expiresIso)
    else none,
    checkApprovalNeeded d⟩, ?_, ?_, ?_⟩
  · unfold processEmail
    rw [hp]
  · cases hn : checkApprovalNeeded d <;> simp [hn]
  · intro fc hfc
    cases hn : checkApprovalNeeded d
    · rw [hn] at hfc
      simp at hfc
    · rw [hn] at hfc
      replace hfc :
          some ("APPROVAL_email_reply_".toList ++ planId d timestamp ++ ".md".toList,
            buildApprovalContent d nowIso expiresIso) = some fc := hfc
      injection hfc with hfc
      subst hfc
      refine ⟨?_, ?_, ?_⟩
      all_goals show containsSeq _ (buildApprovalContent d nowIso expiresIso) = true
      all_goals unfold buildApprovalContent
      all_goals
        repeat
          first
            | exact containsSeq_append_right _ _ _ (by decide)
            | apply containsSeq_append_left
      all_goals decide

/-- C9 witness: a greeting from an unknown contact (approval required)
whose approval file is checked concretely. -/
theorem approval_file_iff_decision_witness :
    parseEmailFrontmatter "from: Bob <bob@x.com>\nsubject: hello\n".toList =
      some ⟨some "Bob <bob@x.com>".toList, none, some "hello".toList,
        none, none, none, none⟩ ∧
    ∃ r, processEmail "from: Bob <bob@x.com>\nsubject: hello\n".toList
        "2025-01-01T00:00:00".toList "2025-01-01T23:59:00".toList
        "20250101_000000".toList = some r ∧
      r.approval.isSome = checkApprovalNeeded
        ⟨some "Bob <bob@x.com>".toList, none, some "hello".toList,
          none, none, none, none⟩ ∧
      ∀ fc, r.approval = some fc →
        containsSeq "\naction: email_send\n".toList fc.2 = true ∧
        containsSeq "\nstatus: pending\n".toList fc.2 = true ∧
        containsSeq "\n## Suggested Reply\n".toList fc.2 = true :=
  ⟨by decide, approval_file_iff_decision _ _ _ _ _ (by decide)⟩

/-! #### Toolkit for the dashboard proofs -/

/-- Prefix testing only looks at the first `p.length` characters. -/
theorem isPrefixOf_eq_of_take_eq (p x y : Str)
    (h : x.take p.length = y.take p.length) :
    p.isPrefixOf x = p.isPrefixOf y := by
  cases hx : p.isPrefixOf x <;> cases hy : p.isPrefixOf y <;> try rfl
  · have hp := List.prefix_iff_eq_take.mp (List.isPrefixOf_iff_prefix.mp hy)
    have hpx : p <+: x := List.prefix_iff_eq_take.mpr (by rw [h]; exact hp)
    rw [List.isPrefixOf_iff_prefix.mpr hpx] at hx
    cases hx
  · have hp := List.prefix_iff_eq_take.mp (List.isPrefixOf_iff_prefix.mp hx)
    have hpy : p <+: y := List.prefix_iff_eq_take.mpr (by rw [← h]; exact hp)
    rw [List.isPrefixOf_iff_prefix.mpr hpy] at hy
    cases hy

/-- A prefix test does not see past a long enough left part. -/
theorem isPrefixOf_append_of_le (p a z : Str) (h : p.length ≤ a.length) :
    p.isPrefixOf (a ++ z) = p.isPrefixOf a := by
  apply isPrefixOf_eq_of_take_eq
  rw [List.take_append_eq_append_take, Nat.sub_eq_zero_of_le h, List.take_zero,
    List.append_nil]

/-- A match reaching past a short left part forces that part to be a
prefix of the pattern. -/
theorem left_isPrefixOf_of_isPrefixOf_append (p a z : Str) (hle : a.length ≤ p.length)
    (h : p.isPrefixOf (a ++ z) = true) : a.isPrefixOf p = true := by
  have hp := List.prefix_iff_eq_take.mp (List.isPrefixOf_iff_prefix.mp h)
  rw [List.take_append_eq_append_take, List.take_of_length_le hle] at hp
  exact List.isPrefixOf_iff_prefix.mpr ⟨z.take (p.length - a.length), hp.symm⟩

/-- A pattern is a prefix of itself followed by anything. -/
theorem isPrefixOf_self_append (p x : Str) : p.isPrefixOf (p ++ x) = true :=
  List.isPrefixOf_iff_prefix.mpr (List.prefix_append p x)

/-- Extending the tested text keeps a successful prefix test. -/
theorem isPrefixOf_append_of_isPrefixOf {p a : Str} (z : Str)
    (h : p.isPrefixOf a = true) : p.isPrefixOf (a ++ z) = true :=
  List.isPrefixOf_iff_prefix.mpr
    ((List.isPrefixOf_iff_prefix.mp h).trans (List.prefix_append a z))

/-- Digits collected by `natDigitsGo` are decimal digits. -/
theorem natDigitsGo_digits (m : Nat) : ∀ acc, (∀ c ∈ acc, c.isDigit = true) →
    ∀ c ∈ natDigitsGo m acc, c.isDigit = true := by
  induction m using Nat.strong_induction_on with
  | _ m ih =>
    intro acc hacc c hc
    match m with
    | 0 =>
      rw [natDigitsGo] at hc
      exact hacc c hc
    | k + 1 =>
      rw [natDigitsGo] at hc
      refine ih ((k + 1) / 10) (Nat.div_lt_self (Nat.succ_pos k) (by omega)) _
        ?_ c hc
      intro x hx
      rcases List.mem_cons.mp hx with rfl | hx
      · have h10 : (k + 1) % 10 < 10 := Nat.mod_lt _ (by omega)
        set r := (k + 1) % 10 with hr
        interval_cases r <;> decide
      · exact hacc x hx

/-- `natDigitsGo` never shrinks the accumulator away. -/
theorem natDigitsGo_ne_nil (m : Nat) : ∀ acc : Str, acc ≠ [] → natDigitsGo m acc ≠ [] := by
  induction m using Nat.strong_induction_on with
  | _ m ih =>
    intro acc hacc
    match m with
    | 0 =>
      rw [natDigitsGo]
      exact hacc
    | k + 1 =>
      rw [natDigitsGo]
      exact ih ((k + 1) / 10) (Nat.div_lt_self (Nat.succ_pos k) (by omega)) _
        (by simp)

/-- The decimal form of a count consists of digits. -/
theorem natDigits_digits (n : Nat) : ∀ c ∈ natDigits n, c.isDigit = true := by
  unfold natDigits
  by_cases h : n = 0
  · rw [if_pos h]
    intro c hc
    rcases List.mem_singleton.mp hc with rfl
    decide
  · rw [if_neg h]
    exact natDigitsGo_digits n [] (by intro c hc; cases hc)

/-- The decimal form of a count is non-empty. -/
theorem natDigits_ne_nil (n : Nat) : natDigits n ≠ [] := by
  unfold natDigits
  by_cases h : n = 0
  · rw [if_pos h]; simp
  · rw [if_neg h]
    obtain ⟨k, rfl⟩ : ∃ k, n = k + 1 := ⟨n - 1, by omega⟩
    rw [natDigitsGo]
    exact natDigitsGo_ne_nil ((k + 1) / 10) _ (by simp)

/-- Unfolding `subCount` at a match. -/
theorem subCount_cons_some {lit : Str} {n : Nat} {c : Char} {cs rest : Str}
    (h : matchCountAt lit (c :: cs) = some rest) :
    subCount lit n (c :: cs) =
      lit ++ natDigits n ++ ' ' :: '|' :: subCount lit n rest := by
  rw [subCount]
  split
  · rename_i rest2 heq
    rw [h] at heq
    injection heq with heq
    rw [heq]
  · rename_i heq
    rw [h] at heq
    cases heq

/-- Unfolding `subCount` at a non-match. -/
theorem subCount_cons_none {lit : Str} {n : Nat} {c : Char} {cs : Str}
    (h : matchCountAt lit (c :: cs) = none) :
    subCount lit n (c :: cs) = c :: subCount lit n cs := by
  rw [subCount]
  split
  · rename_i rest2 heq
    rw [h] at heq
    cases heq
  · rfl

/-- Unfolding `subLU` at a match. -/
theorem subLU_cons_pos {ts : Str} {c : Char} {cs : Str}
    (h : (luLit.isPrefixOf (c :: cs) && ((c :: cs).drop luLit.length).contains '\n') = true) :
    subLU ts (c :: cs) =
      luLit ++ ts ++
        '\n' :: subLU ts ((((c :: cs).drop luLit.length).dropWhile isNotNl).tail) := by
  rw [subLU, if_pos h]

/-- Unfolding `subLU` at a non-match. -/
theorem subLU_cons_neg {ts : Str} {c : Char} {cs : Str}
    (h : ¬(luLit.isPrefixOf (c :: cs) && ((c :: cs).drop luLit.length).contains '\n') = true) :
    subLU ts (c :: cs) = c :: subLU ts cs := by
  rw [subLU, if_neg h]

/-- Splitting `takeWhile`/`dropWhile` at the first failing element. -/
theorem takeWhile_append_stop (q : Char → Bool) (a : Str) (x : Char) (y : Str)
    (ha : ∀ c ∈ a, q c = true) (hx : q x = false) :
    (a ++ x :: y).takeWhile q = a ∧ (a ++ x :: y).dropWhile q = x :: y := by
  induction a with
  | nil => simp [List.takeWhile_cons, List.dropWhile_cons, hx]
  | cons c cs ih =>
    have hc := ha c (List.mem_cons_self c cs)
    have h2 := ih fun d hd => ha d (List.mem_cons_of_mem _ hd)
    simp [List.takeWhile_cons, List.dropWhile_cons, hc, h2.1, h2.2]

/-- A successful count match decomposes the text. -/
theorem matchCountAt_decomp {lit s rest : Str} (h : matchCountAt lit s = some rest) :
    ∃ ds, s = lit ++ (ds ++ ' ' :: '|' :: rest) ∧ ds ≠ [] ∧
      ∀ c ∈ ds, c.isDigit = true := by
  unfold matchCountAt matchCountTail at h
  by_cases h1 : lit.isPrefixOf s = true
  swap
  · rw [if_neg h1] at h
    cases h
  rw [if_pos h1] at h
  by_cases h2 : ((s.drop lit.length).takeWhile Char.isDigit).isEmpty = true
  · rw [if_pos h2] at h
    cases h
  rw [if_neg h2] at h
  by_cases h3 : (' ' :: '|' :: []).isPrefixOf ((s.drop lit.length).dropWhile Char.isDigit) = true
  swap
  · rw [if_neg h3] at h
    cases h
  rw [if_pos h3] at h
  injection h with h
  refine ⟨(s.drop lit.length).takeWhile Char.isDigit, ?_, ?_, ?_⟩
  · have hs : s = lit ++ s.drop lit.length := by
      have hlit := List.prefix_iff_eq_take.mp (List.isPrefixOf_iff_prefix.mp h1)
      conv_lhs => rw [← List.take_append_drop lit.length s]
      rw [← hlit]
    have hdw : (s.drop lit.length).dropWhile Char.isDigit =
        ' ' :: '|' :: ((s.drop lit.length).dropWhile Char.isDigit).drop 2 := by
      obtain ⟨tl, htl⟩ := List.isPrefixOf_iff_prefix.mp h3
      rw [← htl]
      rfl
    conv_lhs => rw [hs]
    congr 1
    conv_lhs =>
      rw [← List.takeWhile_append_dropWhile Char.isDigit (s.drop lit.length)]
    rw [hdw, h]
  · intro he
    rw [he] at h2
    exact h2 rfl
  · intro c hc
    exact List.mem_takeWhile_imp hc

/-- The replacement text matches its own pattern, consuming exactly
itself. -/
theorem matchCountAt_repl (lit ds X : Str) (hne : ds ≠ [])
    (hds : ∀ c ∈ ds, c.isDigit = true) :
    matchCountAt lit (lit ++ (ds ++ ' ' :: '|' :: X)) = some X := by
  unfold matchCountAt matchCountTail
  rw [isPrefixOf_self_append, if_pos rfl, List.drop_left]
  have hsplit := takeWhile_append_stop Char.isDigit ds ' ' ('|' :: X) hds (by decide)
  rw [hsplit.1, hsplit.2, if_neg (by simp [isEmpty_false_of_ne_nil hne])]
  rw [if_pos (by simp [List.isPrefixOf_cons₂])]
  rfl

/-- `subCount` on empty text. -/
theorem subCount_nil (lit : Str) (n : Nat) : subCount lit n [] = [] := by
  rw [subCount]

/-- `subLU` on empty text. -/
theorem subLU_nil (ts : Str) : subLU ts [] = [] := by
  rw [subLU]

/-- `subCount` passes through a region without matches. -/
theorem subCount_append_no_match (lit : Str) (n : Nat) (a b : Str)
    (h : ∀ i < a.length, matchCountAt lit (a.drop i ++ b) = none) :
    subCount lit n (a ++ b) = a ++ subCount lit n b := by
  induction a with
  | nil => rfl
  | cons c cs ih =>
    rw [List.cons_append]
    have h0 : matchCountAt lit (c :: (cs ++ b)) = none := by
      simpa using h 0 (by simp)
    rw [subCount_cons_none h0,
      ih fun i hi => by simpa using h (i + 1) (by simp; omega)]
    rfl

/-- `subCount` is the identity on match-free text. -/
theorem subCount_eq_self (lit : Str) (n : Nat) (x : Str)
    (h : ∀ i < x.length, matchCountAt lit (x.drop i) = none) :
    subCount lit n x = x := by
  induction x with
  | nil => exact subCount_nil lit n
  | cons c cs ih =>
    rw [subCount_cons_none (by simpa using h 0 (by simp)),
      ih fun i hi => by simpa using h (i + 1) (by simp; omega)]

/-- `subCount` only alters text at `lit.length` or more characters past
the first match. -/
theorem subCount_take_eq (lit : Str) (n : Nat) (x : Str) : ∀ (m k : Nat),
    (∀ i < m, matchCountAt lit (x.drop i) = none) → k ≤ m + lit.length →
    (subCount lit n x).take k = x.take k := by
  induction x using subCount.induct lit n with
  | case1 => intro m k h1 h2; rw [subCount_nil]
  | case2 c cs rest h ih =>
    intro m k h1 h2
    rcases Nat.eq_zero_or_pos m with rfl | hm
    · obtain ⟨ds, hdec, hne, hds⟩ := matchCountAt_decomp h
      rw [subCount_cons_some h, hdec]
      rw [List.append_assoc lit (natDigits n)]
      rw [List.take_append_eq_append_take, List.take_append_eq_append_take]
      have hk : k - lit.length = 0 := by omega
      rw [hk]
      simp
      omega
    · have := h1 0 hm
      simp [h] at this
  | case3 c cs h ih =>
    intro m k h1 h2
    rw [subCount_cons_none h]
    cases k with
    | zero => simp
    | succ k2 =>
      rw [List.take_succ_cons, List.take_succ_cons]
      congr 1
      refine ih (m - 1) k2 ?_ (by omega)
      intro i hi
      simpa using h1 (i + 1) (by omega)

/-- `dropWhile` drops exactly the `takeWhile` prefix. -/
theorem dropWhile_eq_drop_takeWhile (q : Char → Bool) (l : Str) :
    l.dropWhile q = l.drop (l.takeWhile q).length := by
  induction l with
  | nil => rfl
  | cons c cs ih =>
    rw [List.dropWhile_cons, List.takeWhile_cons]
    by_cases hc : q c = true
    · rw [if_pos hc, if_pos hc, List.length_cons, List.drop_succ_cons, ih]
    · rw [if_neg (by simpa using hc), if_neg (by simpa using hc)]
      rfl

/-- `takeWhile` walks through an all-satisfying prefix. -/
theorem takeWhile_append_all (q : Char → Bool) (a b : Str)
    (ha : ∀ c ∈ a, q c = true) :
    (a ++ b).takeWhile q = a ++ b.takeWhile q := by
  induction a with
  | nil => rfl
  | cons c cs ih =>
    rw [List.cons_append, List.takeWhile_cons,
      if_pos (ha c (List.mem_cons_self c cs)),
      ih fun d hd => ha d (List.mem_cons_of_mem _ hd)]
    rfl

/-- `dropWhile` walks through an all-satisfying prefix. -/
theorem dropWhile_append_all (q : Char → Bool) (a b : Str)
    (ha : ∀ c ∈ a, q c = true) :
    (a ++ b).dropWhile q = b.dropWhile q := by
  induction a with
  | nil => rfl
  | cons c cs ih =>
    rw [List.cons_append, List.dropWhile_cons,
      if_pos (ha c (List.mem_cons_self c cs)),
      ih fun d hd => ha d (List.mem_cons_of_mem _ hd)]

/-- Failure of a count match is decided by an initial segment: the
literal, the digit run and two further characters. -/
theorem matchCountAt_none_of_take_eq {lit x : Str} (y : Str)
    (h : matchCountAt lit x = none)
    (hbound : y.take (lit.length + ((x.drop lit.length).takeWhile Char.isDigit).length + 2) =
      x.take (lit.length + ((x.drop lit.length).takeWhile Char.isDigit).length + 2)) :
    matchCountAt lit y = none := by
  have htakeL : y.take lit.length = x.take lit.length := by
    have h2 := congrArg (List.take lit.length) hbound
    rwa [List.take_take, List.take_take, Nat.min_def, if_pos (by omega)] at h2
  have hpre : lit.isPrefixOf y = lit.isPrefixOf x :=
    isPrefixOf_eq_of_take_eq _ _ _ htakeL
  unfold matchCountAt matchCountTail at h ⊢
  by_cases h1 : lit.isPrefixOf x = true
  case neg =>
    rw [hpre, if_neg h1]
  case pos =>
    rw [if_pos h1] at h
    rw [hpre, if_pos h1]
    have hdrop : (y.drop lit.length).take
          (((x.drop lit.length).takeWhile Char.isDigit).length + 2) =
        (x.drop lit.length).take
          (((x.drop lit.length).takeWhile Char.isDigit).length + 2) := by
      have h3 := congrArg (List.drop lit.length) hbound
      rwa [List.drop_take, List.drop_take,
        show lit.length + ((x.drop lit.length).takeWhile Char.isDigit).length + 2 -
          lit.length = ((x.drop lit.length).takeWhile Char.isDigit).length + 2 by omega] at h3
    by_cases h2 : ((x.drop lit.length).takeWhile Char.isDigit).isEmpty = true
    · have hD0 : ((x.drop lit.length).takeWhile Char.isDigit).length = 0 := by
        rw [List.isEmpty_iff.mp h2]
        rfl
      rw [hD0] at hdrop
      cases hdx : x.drop lit.length with
      | nil =>
        rw [hdx] at hdrop
        have hy : y.drop lit.length = [] := by
          have h7 : (y.drop lit.length).take 2 = [] := by simpa using hdrop
          cases hyy : y.drop lit.length with
          | nil => rfl
          | cons b bs => rw [hyy] at h7; simp at h7
        rw [hy]
        simp
      | cons a as =>
        have hna : Char.isDigit a = false := by
          rw [hdx, List.takeWhile_cons] at h2
          by_cases hq : Char.isDigit a = true
          · rw [if_pos hq] at h2
            simp at h2
          · simpa using hq
        rw [hdx] at hdrop
        cases hdy : y.drop lit.length with
        | nil =>
          rw [hdy] at hdrop
          simp at hdrop
        | cons b bs =>
          rw [hdy] at hdrop
          have h8 : b :: bs.take 1 = a :: as.take 1 := by simpa using hdrop
          injection h8 with hb hbs
          have htw : (b :: bs).takeWhile Char.isDigit = [] := by
            rw [List.takeWhile_cons, hb, if_neg (by simp [hna])]
          rw [htw]
          simp
    · rw [if_neg h2] at h
      by_cases h3 : (' ' :: '|' :: []).isPrefixOf
          ((x.drop lit.length).dropWhile Char.isDigit) = true
      · rw [if_pos h3] at h
        cases h
      · rw [if_neg h3] at h
        have hsplitx := List.takeWhile_append_dropWhile Char.isDigit (x.drop lit.length)
        have htwdig : ∀ c ∈ (x.drop lit.length).takeWhile Char.isDigit,
            Char.isDigit c = true := fun c hc => List.mem_takeWhile_imp hc
        cases hdwx : (x.drop lit.length).dropWhile Char.isDigit with
        | nil =>
          have hxfull : x.drop lit.length = (x.drop lit.length).takeWhile Char.isDigit := by
            conv_lhs => rw [← hsplitx]
            rw [hdwx, List.append_nil]
          have hylen : y.drop lit.length = x.drop lit.length := by
            have hlen : (x.drop lit.length).length =
                ((x.drop lit.length).takeWhile Char.isDigit).length := by
              conv_lhs => rw [hxfull]
            have htx : (x.drop lit.length).take
                (((x.drop lit.length).takeWhile Char.isDigit).length + 2) =
                x.drop lit.length := List.take_of_length_le (by omega)
            rw [htx] at hdrop
            have h4 := congrArg List.length hdrop
            rw [List.length_take] at h4
            have h5 : (y.drop lit.length).length ≤
                ((x.drop lit.length).takeWhile Char.isDigit).length + 2 := by omega
            rw [← hdrop, List.take_of_length_le h5]
          rw [hylen]
          rw [if_neg h2, if_neg h3]
        | cons w ws =>
          have hnw : Char.isDigit w = false := by
            by_cases hq : Char.isDigit w = true
            · exfalso
              have := takeWhile_append_all Char.isDigit
                ((x.drop lit.length).takeWhile Char.isDigit) (w :: ws) htwdig
              rw [hdwx] at hsplitx
              rw [hsplitx] at this
              have hlen := congrArg List.length this
              rw [List.takeWhile_cons, if_pos hq] at hlen
              simp at hlen
            · simpa using hq
          have hxform : x.drop lit.length =
              (x.drop lit.length).takeWhile Char.isDigit ++ w :: ws := by
            conv_lhs => rw [← hsplitx]
            rw [hdwx]
          have htakex : (x.drop lit.length).take
              (((x.drop lit.length).takeWhile Char.isDigit).length + 2) =
              (x.drop lit.length).takeWhile Char.isDigit ++ w :: ws.take 1 := by
            nth_rewrite 2 [hxform]
            rw [List.take_append_eq_append_take]
            congr 1
            · exact List.take_of_length_le (by omega)
            · rw [show ((x.drop lit.length).takeWhile Char.isDigit).length + 2 -
                ((x.drop lit.length).takeWhile Char.isDigit).length = 2 by omega]
              rfl
          have hyform : y.drop lit.length =
              (x.drop lit.length).takeWhile Char.isDigit ++ w ::
                (y.drop lit.length).drop
                  (((x.drop lit.length).takeWhile Char.isDigit).length + 1) := by
            have htk : (y.drop lit.length).take
                (((x.drop lit.length).takeWhile Char.isDigit).length + 1) =
                (x.drop lit.length).takeWhile Char.isDigit ++ [w] := by
              have h4 := congrArg
                (List.take (((x.drop lit.length).takeWhile Char.isDigit).length + 1)) hdrop
              rw [List.take_take, List.take_take, Nat.min_def, if_pos (by omega)] at h4
              rw [h4]
              nth_rewrite 2 [hxform]
              rw [List.take_append_eq_append_take]
              congr 1
              · exact List.take_of_length_le (by omega)
              · rw [show ((x.drop lit.length).takeWhile Char.isDigit).length + 1 -
                  ((x.drop lit.length).takeWhile Char.isDigit).length = 1 by omega]
                rfl
            conv_lhs => rw [← List.take_append_drop
              (((x.drop lit.length).takeWhile Char.isDigit).length + 1) (y.drop lit.length)]
            rw [htk]
            simp
          have htwc : ∀ rest : Str, (w :: rest).takeWhile Char.isDigit = [] := by
            intro rest
            rw [List.takeWhile_cons, if_neg (by simp [hnw])]
          have hdwc : ∀ rest : Str, (w :: rest).dropWhile Char.isDigit = w :: rest := by
            intro rest
            rw [List.dropWhile_cons, if_neg (by simp [hnw])]
          rw [hyform,
            takeWhile_append_all Char.isDigit _ _ htwdig,
            dropWhile_append_all Char.isDigit _ _ htwdig,
            htwc, hdwc]
          rw [List.append_nil]
          have hTne : (x.drop lit.length).takeWhile Char.isDigit ≠ [] := by
            intro he
            rw [he] at h2
            exact h2 rfl
          rw [if_neg (by simp [isEmpty_false_of_ne_nil hTne])]
          have hd2 : ((y.drop lit.length).drop
              (((x.drop lit.length).takeWhile Char.isDigit).length + 1)).take 1 =
              ws.take 1 := by
            have h5 : ((x.drop lit.length).takeWhile Char.isDigit) ++ w ::
                ((y.drop lit.length).drop
                  (((x.drop lit.length).takeWhile Char.isDigit).length + 1)).take 1 =
                ((x.drop lit.length).takeWhile Char.isDigit) ++ w :: ws.take 1 := by
              conv_lhs => rw [show ((x.drop lit.length).takeWhile Char.isDigit) ++ w ::
                  ((y.drop lit.length).drop
                    (((x.drop lit.length).takeWhile Char.isDigit).length + 1)).take 1 =
                  (((x.drop lit.length).takeWhile Char.isDigit) ++ w ::
                    ((y.drop lit.length).drop
                      (((x.drop lit.length).takeWhile Char.isDigit).length + 1))).take
                    (((x.drop lit.length).takeWhile Char.isDigit).length + 2) by
                rw [List.take_append_eq_append_take,
                  show ((x.drop lit.length).takeWhile Char.isDigit).length + 2 -
                    ((x.drop lit.length).takeWhile Char.isDigit).length = 2 by omega]
                nth_rewrite 2 [List.take_of_length_le (by omega)]
                rfl]
              rw [← hyform, hdrop, htakex]
            have h6 := List.append_cancel_left h5
            injection h6 with h7 h8
          have htk2 : (w :: (y.drop lit.length).drop
              (((x.drop lit.length).takeWhile Char.isDigit).length + 1)).take
              (' ' :: '|' :: []).length =
              (w :: ws).take (' ' :: '|' :: []).length := by
            show w :: ((y.drop lit.length).drop
              (((x.drop lit.length).takeWhile Char.isDigit).length + 1)).take 1 =
              w :: ws.take 1
            rw [hd2]
          have hpw : (' ' :: '|' :: []).isPrefixOf
              (w :: (y.drop lit.length).drop
                (((x.drop lit.length).takeWhile Char.isDigit).length + 1)) = false := by
            rw [isPrefixOf_eq_of_take_eq (' ' :: '|' :: []) _ (w :: ws) htk2]
            rw [hdwx] at h3
            exact Bool.eq_false_iff.mpr h3
          rw [if_neg (by simp only [hpw]; simp)]

/-- A prefix determines the elements of the longer list on its indices. -/
theorem getElem?_of_isPrefixOf {p l : Str} (h : p.isPrefixOf l = true)
    (i : Nat) (hi : i < p.length) : l[i]? = p[i]? := by
  obtain ⟨t, ht⟩ := List.isPrefixOf_iff_prefix.mp h
  rw [← ht, List.getElem?_append, if_pos hi]

/-- A known element mismatch in the window refutes a prefix claim. -/
theorem isPrefixOf_false_of_getElem {lit v : Str} (j k : Nat) {a b : Char}
    (hk : lit[k]? = some b) (hv : v[j + k]? = some a)
    (hne : a ≠ b) : lit.isPrefixOf (v.drop j) = false := by
  cases hp : lit.isPrefixOf (v.drop j) with
  | false => rfl
  | true =>
    exfalso
    have hklt : k < lit.length := by
      rcases List.getElem?_eq_some.mp hk with ⟨h1, h2⟩
      exact h1
    have h3 := getElem?_of_isPrefixOf hp k hklt
    rw [List.getElem?_drop, hv, hk] at h3
    exact hne (Option.some.inj h3)

/-- A failed literal prefix makes `matchCountAt` fail outright. -/
theorem matchCountAt_none_of_prefix_false {lit s : Str}
    (h : lit.isPrefixOf s = false) : matchCountAt lit s = none := by
  unfold matchCountAt
  rw [h]
  rfl

/-- In a digit-free literal, a digit sitting in the match window refutes
the literal prefix. -/
theorem isPrefixOf_false_of_digit {lit v : Str} (j d : Nat)
    (hnd : ∀ c ∈ lit, c.isDigit = false)
    {a : Char} (hv : v[d]? = some a) (ha : a.isDigit = true)
    (hj : j ≤ d) (hlt : d - j < lit.length) :
    lit.isPrefixOf (v.drop j) = false := by
  cases hb : lit[d - j]? with
  | none =>
    exfalso
    rw [List.getElem?_eq_none_iff] at hb
    omega
  | some b =>
    have hbd : b.isDigit = false := hnd b (List.getElem?_mem hb)
    refine isPrefixOf_false_of_getElem (a := a) j (d - j) hb ?_ ?_
    · rw [show j + (d - j) = d by omega]
      exact hv
    · intro he
      rw [he, hbd] at ha
      cases ha

/-- No shifted copy of a digit-free count literal can start inside the
literal-plus-digit-run window of a match attempt. -/
theorem isPrefixOf_false_within_run {lit x : Str}
    (hnd : ∀ c ∈ lit, c.isDigit = false) (hL : 2 ≤ lit.length)
    {b2 b1 : Char} (hb2 : lit[lit.length - 2]? = some b2)
    (hb1 : lit[lit.length - 1]? = some b1) (hne : b2 ≠ b1)
    (h1 : lit.isPrefixOf x = true) (p : Nat) (hp1 : 1 ≤ p)
    (hp2 : p ≤ ((x.drop lit.length).takeWhile Char.isDigit).length + 1) :
    lit.isPrefixOf (x.drop p) = false := by
  rcases Nat.lt_or_ge p 2 with hp | hp
  · have hp' : p = 1 := by omega
    subst hp'
    refine isPrefixOf_false_of_getElem 1 (lit.length - 2) hb2 ?_ hne.symm
    rw [show 1 + (lit.length - 2) = lit.length - 1 by omega]
    rw [getElem?_of_isPrefixOf h1 (lit.length - 1) (by omega)]
    exact hb1
  · have hr : p - 2 < ((x.drop lit.length).takeWhile Char.isDigit).length := by
      omega
    have hd : x[lit.length + (p - 2)]? =
        ((x.drop lit.length).takeWhile Char.isDigit)[p - 2]? := by
      rw [← List.getElem?_drop]
      conv_lhs => rw [← List.takeWhile_append_dropWhile Char.isDigit
        (x.drop lit.length)]
      rw [List.getElem?_append, if_pos hr]
    cases ha : ((x.drop lit.length).takeWhile Char.isDigit)[p - 2]? with
    | none =>
      exfalso
      rw [List.getElem?_eq_none_iff] at ha
      omega
    | some a =>
      refine isPrefixOf_false_of_digit p (lit.length + (p - 2)) hnd
        (by rw [hd, ha]) ?_ (by omega) (by omega)
      exact List.mem_takeWhile_imp (List.getElem?_mem ha)

/-- The failure of a count match at the head survives rewriting the tail
with the same pattern. -/
theorem matchCountAt_none_cons_subCount (lit : Str) (n : Nat)
    (hnd : ∀ c ∈ lit, c.isDigit = false) (hL : 2 ≤ lit.length)
    {b2 b1 : Char} (hb2 : lit[lit.length - 2]? = some b2)
    (hb1 : lit[lit.length - 1]? = some b1) (hne : b2 ≠ b1)
    {c : Char} {cs : Str} (h : matchCountAt lit (c :: cs) = none) :
    matchCountAt lit (c :: subCount lit n cs) = none := by
  by_cases hpre : lit.isPrefixOf (c :: cs) = true
  · refine matchCountAt_none_of_take_eq _ h ?_
    have hr : lit.length + (((c :: cs).drop lit.length).takeWhile Char.isDigit).length + 2 =
        (lit.length + (((c :: cs).drop lit.length).takeWhile Char.isDigit).length + 1) + 1 := by
      omega
    rw [hr, List.take_succ_cons, List.take_succ_cons]
    congr 1
    refine subCount_take_eq lit n cs
      ((((c :: cs).drop lit.length).takeWhile Char.isDigit).length + 1) _ ?_ (by omega)
    intro i hi
    refine matchCountAt_none_of_prefix_false ?_
    rw [show cs.drop i = (c :: cs).drop (i + 1) by rfl]
    exact isPrefixOf_false_within_run hnd hL hb2 hb1 hne hpre (i + 1)
      (by omega) (by omega)
  · refine matchCountAt_none_of_prefix_false ?_
    rw [isPrefixOf_eq_of_take_eq lit _ (c :: cs) ?_]
    · exact Bool.eq_false_iff.mpr hpre
    · rcases Nat.exists_eq_add_of_le hL with ⟨k, hk⟩
      rw [hk, show 2 + k = k + 1 + 1 by omega, List.take_succ_cons, List.take_succ_cons]
      congr 1
      exact subCount_take_eq lit n cs 0 (k + 1) (by intro i hi; omega) (by omega)

/-- Unfolding `subCount` at a match, stated for any non-trivially matched
text. -/
theorem subCount_eq_of_match {lit : Str} {n : Nat} {z rest : Str}
    (h : matchCountAt lit z = some rest) :
    subCount lit n z = lit ++ natDigits n ++ ' ' :: '|' :: subCount lit n rest := by
  cases z with
  | nil =>
    exfalso
    unfold matchCountAt matchCountTail at h
    by_cases h1 : lit.isPrefixOf [] = true
    · rw [if_pos h1] at h
      simp at h
    · rw [if_neg h1] at h
      cases h
  | cons c cs => exact subCount_cons_some h

/-- Re-running a count-row substitution is a no-op: the substitution is
idempotent for every digit-free literal whose last two characters
differ. -/
theorem subCount_idem (lit : Str) (n : Nat)
    (hnd : ∀ c ∈ lit, c.isDigit = false) (hL : 2 ≤ lit.length)
    {b2 b1 : Char} (hb2 : lit[lit.length - 2]? = some b2)
    (hb1 : lit[lit.length - 1]? = some b1) (hne : b2 ≠ b1)
    (x : Str) : subCount lit n (subCount lit n x) = subCount lit n x := by
  induction x using subCount.induct lit n with
  | case1 => rw [subCount_nil, subCount_nil]
  | case2 c cs rest h ih =>
    rw [subCount_cons_some h]
    have hm : matchCountAt lit
        (lit ++ natDigits n ++ ' ' :: '|' :: subCount lit n rest) =
        some (subCount lit n rest) := by
      have h2 := matchCountAt_repl lit (natDigits n) (subCount lit n rest)
        (natDigits_ne_nil n) (natDigits_digits n)
      rw [← List.append_assoc] at h2
      exact h2
    rw [subCount_eq_of_match hm, ih]
  | case3 c cs h ih =>
    rw [subCount_cons_none h,
      subCount_cons_none (matchCountAt_none_cons_subCount lit n hnd hL hb2 hb1 hne h),
      ih]


/-- Boolean containment is membership. -/
theorem contains_false_iff (l : Str) (a : Char) : l.contains a = false ↔ a ∉ l := by
  simp

/-- Containment of a dropped list transfers from the whole list. -/
theorem contains_false_drop (x : Str) (a : Char) (k : Nat)
    (h : x.contains a = false) : (x.drop k).contains a = false := by
  rw [contains_false_iff] at h ⊢
  intro hm
  exact h ((List.drop_sublist k x).mem hm)

/-- The `last_updated` substitution never changes the first
`luLit.length` characters before the first match. -/
theorem subLU_take_le (ts x : Str) : ∀ k ≤ luLit.length,
    (subLU ts x).take k = x.take k := by
  induction x using subLU.induct ts with
  | case1 => intro k hk; rw [subLU_nil]
  | case2 c cs h ih =>
    intro k hk
    rw [subLU_cons_pos h]
    simp only [Bool.and_eq_true] at h
    have htk : (c :: cs).take luLit.length = luLit :=
      (List.prefix_iff_eq_take.mp (List.isPrefixOf_iff_prefix.mp h.1)).symm
    rw [List.append_assoc, List.take_append_eq_append_take,
      show k - luLit.length = 0 by omega, List.take_zero, List.append_nil,
      show (c :: cs).take k = ((c :: cs).take luLit.length).take k by
        rw [List.take_take, Nat.min_def, if_pos hk],
      htk]
  | case3 c cs h ih =>
    intro k hk
    rw [subLU_cons_neg h]
    cases k with
    | zero => rfl
    | succ k2 =>
      rw [List.take_succ_cons, List.take_succ_cons, ih k2 (by omega)]

/-- Without a newline beyond the literal there is no `last_updated`
match anywhere, and the substitution is the identity. -/
theorem subLU_eq_self_of_no_nl_tail (ts x : Str)
    (h : ((x.drop luLit.length).contains '\n') = false) : subLU ts x = x := by
  induction x using subLU.induct ts with
  | case1 => exact subLU_nil ts
  | case2 c cs h2 ih =>
    exfalso
    simp only [Bool.and_eq_true] at h2
    rw [h2.2] at h
    cases h
  | case3 c cs h2 ih =>
    have h3 : (cs.drop luLit.length).contains '\n' = false := by
      have h4 : cs.drop luLit.length = ((c :: cs).drop luLit.length).drop 1 := by
        rw [List.drop_drop]
        rfl
      rw [h4]
      exact contains_false_drop _ _ _ h
    rw [subLU_cons_neg h2, ih h3]

/-- Unfolding `subLU` at a match, for any matched text. -/
theorem subLU_eq_of_match {ts z : Str}
    (h : (luLit.isPrefixOf z && ((z.drop luLit.length).contains '\n')) = true) :
    subLU ts z = luLit ++ ts ++
      '\n' :: subLU ts (((z.drop luLit.length).dropWhile isNotNl).tail) := by
  cases z with
  | nil =>
    exfalso
    have h2 : luLit.isPrefixOf ([] : Str) = false := by decide
    rw [h2] at h
    cases h
  | cons c cs => exact subLU_cons_pos h

/-- Characters of a newline-free text satisfy the line-character
class. -/
theorem ts_isNotNl {ts : Str} (hts : '\n' ∉ ts) :
    ∀ c ∈ ts, isNotNl c = true := by
  intro c hc
  unfold isNotNl
  simp only [decide_eq_true_eq]
  intro he
  rw [he] at hc
  exact hts hc

/-- The `last_updated` replacement text matches its own pattern and the
scan consumes exactly the replacement. -/
theorem subLU_repl (ts Z : Str) (hts : '\n' ∉ ts) :
    subLU ts (luLit ++ ts ++ '\n' :: Z) = luLit ++ ts ++ '\n' :: subLU ts Z := by
  have hdrop : (luLit ++ ts ++ '\n' :: Z).drop luLit.length = ts ++ '\n' :: Z := by
    rw [List.append_assoc, List.drop_left]
  have hcond : (luLit.isPrefixOf (luLit ++ ts ++ '\n' :: Z) &&
      (((luLit ++ ts ++ '\n' :: Z).drop luLit.length).contains '\n')) = true := by
    rw [hdrop, List.append_assoc, isPrefixOf_self_append]
    simp
  rw [subLU_eq_of_match hcond, hdrop,
    dropWhile_append_all isNotNl ts ('\n' :: Z) (ts_isNotNl hts),
    List.dropWhile_cons, if_neg (by simp [isNotNl])]
  rfl

/-- Splitting at an explicit first newline is unambiguous. -/
theorem nl_split_eq {a b x y : Str} (ha : '\n' ∉ a) (hb : '\n' ∉ b)
    (h : a ++ '\n' :: x = b ++ '\n' :: y) : a = b ∧ x = y := by
  have hta : (a ++ '\n' :: x).takeWhile isNotNl = a := by
    rw [takeWhile_append_all isNotNl a _ (ts_isNotNl ha),
      List.takeWhile_cons, if_neg (by simp [isNotNl]), List.append_nil]
  have htb : (b ++ '\n' :: y).takeWhile isNotNl = b := by
    rw [takeWhile_append_all isNotNl b _ (ts_isNotNl hb),
      List.takeWhile_cons, if_neg (by simp [isNotNl]), List.append_nil]
  have hab : a = b := by
    rw [← hta, ← htb, h]
  refine ⟨hab, ?_⟩
  rw [hab] at h
  have h2 := List.append_cancel_left h
  injection h2

/-- Re-running the `last_updated` substitution with the same newline-free
timestamp is a no-op. -/
theorem subLU_idem (ts : Str) (hts : '\n' ∉ ts) (x : Str) :
    subLU ts (subLU ts x) = subLU ts x := by
  induction x using subLU.induct ts with
  | case1 => rw [subLU_nil, subLU_nil]
  | case2 c cs h ih =>
    rw [subLU_cons_pos h, subLU_repl _ _ hts, ih]
  | case3 c cs h ih =>
    rw [subLU_cons_neg h]
    by_cases hpre : luLit.isPrefixOf (c :: cs) = true
    · have hcont : ((c :: cs).drop luLit.length).contains '\n' = false := by
        cases hc : ((c :: cs).drop luLit.length).contains '\n' with
        | false => rfl
        | true => exact absurd (by rw [hpre, hc]; rfl) h
      have h2 : (cs.drop luLit.length).contains '\n' = false := by
        have h3 : cs.drop luLit.length = ((c :: cs).drop luLit.length).drop 1 := by
          rw [List.drop_drop]
          rfl
        rw [h3]
        exact contains_false_drop _ _ _ hcont
      rw [subLU_eq_self_of_no_nl_tail ts cs h2, subLU_cons_neg h,
        subLU_eq_self_of_no_nl_tail ts cs h2]
    · have hpre2 : luLit.isPrefixOf (c :: subLU ts cs) = false := by
        rw [isPrefixOf_eq_of_take_eq luLit _ (c :: cs) ?_]
        · exact Bool.eq_false_iff.mpr hpre
        · rw [show luLit.length = 13 + 1 by decide, List.take_succ_cons,
            List.take_succ_cons, subLU_take_le ts cs 13 (by decide)]
      rw [subLU_cons_neg (by rw [hpre2]; simp), ih]

/-- Element lookup in the literal part of a count region. -/
theorem count_region_getElem_lit {lit2 ds K : Str} (m : Nat)
    (hm : m < lit2.length) :
    (lit2 ++ ds ++ ' ' :: K)[m]? = lit2[m]? := by
  rw [List.append_assoc, List.getElem?_append, if_pos hm]

/-- Element lookup in the digit part of a count region. -/
theorem count_region_getElem_digit {lit2 ds K : Str} (m : Nat)
    (hm : m < ds.length) :
    (lit2 ++ ds ++ ' ' :: K)[lit2.length + m]? = ds[m]? := by
  rw [List.append_assoc, List.getElem?_append_right (by omega),
    show lit2.length + m - lit2.length = m by omega,
    List.getElem?_append, if_pos hm]

/-- Element lookup at the space of a count region. -/
theorem count_region_getElem_space {lit2 ds K : Str} :
    (lit2 ++ ds ++ ' ' :: K)[lit2.length + ds.length]? = some ' ' := by
  rw [List.append_assoc, List.getElem?_append_right (by omega),
    show lit2.length + ds.length - lit2.length = ds.length by omega,
    List.getElem?_append_right (by omega), Nat.sub_self]
  simp

/-- A digit-free literal that does not occur shifted inside the count
literal cannot start strictly inside a count region, up to and including
the space before the closing bar. -/
theorem no_lit_inside_count_region (lit lit2 ds K : Str)
    (hds : ds ≠ []) (hdig : ∀ c ∈ ds, c.isDigit = true)
    (hnd : ∀ c ∈ lit, c.isDigit = false)
    {b0 : Char} (hb0 : lit[0]? = some b0) (hb0s : b0 ≠ ' ')
    (hwin : ∀ j < lit2.length, 1 ≤ j → j + lit.length ≤ lit2.length →
      lit.isPrefixOf (lit2.drop j) = false)
    (i : Nat) (hi1 : 1 ≤ i) (hi2 : i ≤ lit2.length + ds.length) :
    lit.isPrefixOf ((lit2 ++ ds ++ ' ' :: K).drop i) = false := by
  have hdsl : 1 ≤ ds.length := by
    cases ds with
    | nil => exact absurd rfl hds
    | cons a as => simp
  rcases Nat.lt_or_ge (i + lit.length) (lit2.length + 1) with hcase | hcase
  · -- window fits inside the count literal
    have hi3 : i < lit2.length := by
      have hll : 1 ≤ lit.length := by
        rcases List.getElem?_eq_some.mp hb0 with ⟨h1, h2⟩
        omega
      omega
    rw [List.append_assoc, List.drop_append_eq_append_drop,
      show i - lit2.length = 0 by omega, List.drop_zero]
    rw [isPrefixOf_append_of_le _ _ _ (by rw [List.length_drop]; omega)]
    exact hwin i hi3 hi1 (by omega)
  · rcases Nat.lt_or_ge i (lit2.length + 1) with hcase2 | hcase2
    · -- window reaches the first digit
      cases hd0 : ds[0]? with
      | none =>
        exfalso
        rw [List.getElem?_eq_none_iff] at hd0
        omega
      | some a =>
        refine isPrefixOf_false_of_digit i lit2.length hnd ?_
          (hdig a (List.getElem?_mem hd0)) (by omega) (by omega)
        rw [show lit2.length = lit2.length + 0 by omega,
          count_region_getElem_digit 0 (by omega)]
        exact hd0
    · rcases Nat.lt_or_ge i (lit2.length + ds.length) with hcase3 | hcase3
      · -- start inside the digit run
        cases hd0 : ds[i - lit2.length]? with
        | none =>
          exfalso
          rw [List.getElem?_eq_none_iff] at hd0
          omega
        | some a =>
          refine isPrefixOf_false_of_digit i i hnd ?_
            (hdig a (List.getElem?_mem hd0)) (by omega) ?_
          · rw [show i = lit2.length + (i - lit2.length) by omega,
              count_region_getElem_digit (i - lit2.length) (by omega)]
            exact hd0
          · rcases List.getElem?_eq_some.mp hb0 with ⟨h1, h2⟩
            omega
      · -- start at the space before the closing bar
        have hi4 : i = lit2.length + ds.length := by omega
        refine isPrefixOf_false_of_getElem (a := ' ') i 0 hb0 ?_ ?_
        · rw [Nat.add_zero, hi4]
          exact count_region_getElem_space
        · exact fun he => hb0s he.symm

/-- No pending-row match can start inside an awaiting-approval count
region (strictly before its closing bar). -/
theorem no_pend_match_in_appr_region (ds K : Str) (hds : ds ≠ [])
    (hdig : ∀ c ∈ ds, c.isDigit = true) (i : Nat)
    (hi : i ≤ apprLit.length + ds.length) :
    matchCountAt pendLit ((apprLit ++ ds ++ ' ' :: K).drop i) = none := by
  refine matchCountAt_none_of_prefix_false ?_
  rcases Nat.eq_zero_or_pos i with rfl | hi1
  · rw [List.drop_zero, show apprLit ++ ds ++ ' ' :: K =
      (apprLit ++ ds ++ ' ' :: K).drop 0 by rw [List.drop_zero]]
    refine isPrefixOf_false_of_getElem (a := 'A') (b := 'P') 0 4 (by decide) ?_ (by decide)
    rw [Nat.zero_add, count_region_getElem_lit 4 (by decide)]
    decide
  · exact no_lit_inside_count_region pendLit apprLit ds K hds hdig
      (by decide) (by decide : pendLit[0]? = some '|') (by decide)
      (by decide) i hi1 hi

/-- No awaiting-approval match can start inside a pending-row count
region (strictly before its closing bar). -/
theorem no_appr_match_in_pend_region (ds K : Str) (hds : ds ≠ [])
    (hdig : ∀ c ∈ ds, c.isDigit = true) (i : Nat)
    (hi : i ≤ pendLit.length + ds.length) :
    matchCountAt apprLit ((pendLit ++ ds ++ ' ' :: K).drop i) = none := by
  refine matchCountAt_none_of_prefix_false ?_
  rcases Nat.eq_zero_or_pos i with rfl | hi1
  · rw [List.drop_zero, show pendLit ++ ds ++ ' ' :: K =
      (pendLit ++ ds ++ ' ' :: K).drop 0 by rw [List.drop_zero]]
    refine isPrefixOf_false_of_getElem (a := 'P') (b := 'A') 0 4 (by decide) ?_ (by decide)
    rw [Nat.zero_add, count_region_getElem_lit 4 (by decide)]
    decide
  · exact no_lit_inside_count_region apprLit pendLit ds K hds hdig
      (by decide) (by decide : apprLit[0]? = some '|') (by decide)
      (by decide) i hi1 hi

/-- The `last_updated` literal cannot start anywhere inside a complete
count match, its closing bar included. -/
theorem no_lu_in_count_region (lit2 ds K : Str) (hds : ds ≠ [])
    (hdig : ∀ c ∈ ds, c.isDigit = true)
    (hb : lit2[0]? = some '|')
    (hnd : ∀ c ∈ luLit, c.isDigit = false)
    (hwin : ∀ j < lit2.length, 1 ≤ j → j + luLit.length ≤ lit2.length →
      luLit.isPrefixOf (lit2.drop j) = false)
    (i : Nat) (hi : i ≤ lit2.length + ds.length + 1) :
    luLit.isPrefixOf ((lit2 ++ ds ++ ' ' :: '|' :: K).drop i) = false := by
  rcases Nat.eq_zero_or_pos i with rfl | hi1
  · rw [List.drop_zero, show lit2 ++ ds ++ ' ' :: '|' :: K =
      (lit2 ++ ds ++ ' ' :: '|' :: K).drop 0 by rw [List.drop_zero]]
    refine isPrefixOf_false_of_getElem (a := '|') 0 0 (by decide : luLit[0]? = some 'l') ?_ (by decide)
    rw [Nat.zero_add]
    have h0 : 0 < lit2.length := by
      rcases List.getElem?_eq_some.mp hb with ⟨h1, h2⟩
      omega
    rw [count_region_getElem_lit 0 h0]
    exact hb
  · rcases Nat.lt_or_ge i (lit2.length + ds.length + 1) with hcase | hcase
    · exact no_lit_inside_count_region luLit lit2 ds ('|' :: K) hds hdig hnd
        (by decide : luLit[0]? = some 'l') (by decide) hwin i hi1 (by omega)
    · have hi2 : i = lit2.length + ds.length + 1 := by omega
      have hvd : (lit2 ++ ds ++ ' ' :: '|' :: K).drop i = '|' :: K := by
        rw [List.append_assoc, List.drop_append_eq_append_drop,
          List.drop_eq_nil_of_le (by omega), List.nil_append,
          List.drop_append_eq_append_drop,
          List.drop_eq_nil_of_le (by omega), List.nil_append,
          show i - lit2.length - ds.length = 1 by omega]
        rfl
      rw [hvd, show ('|' : Char) :: K = ('|' :: K).drop 0 by rw [List.drop_zero]]
      exact isPrefixOf_false_of_getElem (a := '|') 0 0
        (by decide : luLit[0]? = some 'l') (by simp) (by decide)

/-- Fixedness of a count substitution restricts to the tail after a
match-free region. -/
theorem subCount_fixed_append_elim {lit : Str} {n : Nat} {a b : Str}
    (hno : ∀ i < a.length, matchCountAt lit (a.drop i ++ b) = none)
    (hfix : subCount lit n (a ++ b) = a ++ b) : subCount lit n b = b := by
  rw [subCount_append_no_match lit n a b hno] at hfix
  exact List.append_cancel_left hfix

/-- Fixedness of a count substitution extends over a match-free
region. -/
theorem subCount_fixed_append_intro {lit : Str} {n : Nat} {a b : Str}
    (hno : ∀ i < a.length, matchCountAt lit (a.drop i ++ b) = none)
    (hfix : subCount lit n b = b) : subCount lit n (a ++ b) = a ++ b := by
  rw [subCount_append_no_match lit n a b hno, hfix]

/-- Fixedness of a count substitution restricts to the tail after a
cons at a non-match. -/
theorem subCount_fixed_cons_elim {lit : Str} {n : Nat} {c : Char} {cs : Str}
    (hno : matchCountAt lit (c :: cs) = none)
    (hfix : subCount lit n (c :: cs) = c :: cs) : subCount lit n cs = cs := by
  rw [subCount_cons_none hno] at hfix
  injection hfix

/-- Fixedness of a count substitution extends over a cons at a
non-match. -/
theorem subCount_fixed_cons_intro {lit : Str} {n : Nat} {c : Char} {cs : Str}
    (hno : matchCountAt lit (c :: cs) = none)
    (hfix : subCount lit n cs = cs) : subCount lit n (c :: cs) = c :: cs := by
  rw [subCount_cons_none hno, hfix]

/-- A fixed point of the count substitution with a match at the head
already carries the replacement digits, and the remainder is fixed. -/
theorem subCount_fixed_match_elim {lit : Str} {n : Nat} {z r : Str}
    (hm : matchCountAt lit z = some r)
    (hfix : subCount lit n z = z) :
    z = lit ++ natDigits n ++ ' ' :: '|' :: r ∧ subCount lit n r = r := by
  obtain ⟨ds, hdec, hne, hds⟩ := matchCountAt_decomp hm
  rw [subCount_eq_of_match hm, hdec] at hfix
  rw [List.append_assoc] at hfix
  have h2 := List.append_cancel_left hfix
  have h3 := congrArg (List.takeWhile Char.isDigit) h2
  rw [(takeWhile_append_stop Char.isDigit (natDigits n) ' '
      ('|' :: subCount lit n r) (natDigits_digits n) (by decide)).1,
    (takeWhile_append_stop Char.isDigit ds ' ' ('|' :: r) hds (by decide)).1] at h3
  rw [← h3] at h2
  have h4 := List.append_cancel_left h2
  injection h4 with h5 h6
  injection h6 with h7 h8
  constructor
  · rw [hdec, ← h3, ← List.append_assoc]
  · exact h8

/-- Fixedness of a count substitution extends over its own replacement
text. -/
theorem subCount_fixed_match_intro {lit : Str} {n : Nat} {w : Str}
    (hfix : subCount lit n w = w) :
    subCount lit n (lit ++ natDigits n ++ ' ' :: '|' :: w) =
      lit ++ natDigits n ++ ' ' :: '|' :: w := by
  have hm : matchCountAt lit (lit ++ natDigits n ++ ' ' :: '|' :: w) = some w := by
    have h2 := matchCountAt_repl lit (natDigits n) w
      (natDigits_ne_nil n) (natDigits_digits n)
    rw [← List.append_assoc] at h2
    exact h2
  rw [subCount_eq_of_match hm, hfix]

/-- Any position of the digit run of a match attempt holds a digit. -/
theorem run_digit_at {lit x : Str} (m : Nat)
    (hm : m < ((x.drop lit.length).takeWhile Char.isDigit).length) :
    ∃ a, x[lit.length + m]? = some a ∧ a.isDigit = true := by
  have hd : x[lit.length + m]? =
      ((x.drop lit.length).takeWhile Char.isDigit)[m]? := by
    rw [← List.getElem?_drop]
    conv_lhs => rw [← List.takeWhile_append_dropWhile Char.isDigit
      (x.drop lit.length)]
    rw [List.getElem?_append, if_pos hm]
  cases ha : ((x.drop lit.length).takeWhile Char.isDigit)[m]? with
  | none =>
    exfalso
    rw [List.getElem?_eq_none_iff] at ha
    omega
  | some a =>
    exact ⟨a, by rw [hd, ha], List.mem_takeWhile_imp (List.getElem?_mem ha)⟩

/-- A failed pending-row match at the head survives rewriting the tail
with the awaiting-approval pattern. -/
theorem pend_none_cons_subCount_appr (na : Nat) {c : Char} {cs : Str}
    (h : matchCountAt pendLit (c :: cs) = none) :
    matchCountAt pendLit (c :: subCount apprLit na cs) = none := by
  have h22 : pendLit.length = 22 := by decide
  have h26 : apprLit.length = 26 := by decide
  by_cases hpre : pendLit.isPrefixOf (c :: cs) = true
  · refine matchCountAt_none_of_take_eq _ h ?_
    rw [show pendLit.length +
        (((c :: cs).drop pendLit.length).takeWhile Char.isDigit).length + 2 =
        (pendLit.length +
          (((c :: cs).drop pendLit.length).takeWhile Char.isDigit).length + 1) + 1
        by omega,
      List.take_succ_cons, List.take_succ_cons]
    congr 1
    refine subCount_take_eq apprLit na cs
      (((c :: cs).drop pendLit.length).takeWhile Char.isDigit).length _ ?_
      (by omega)
    intro i hi
    refine matchCountAt_none_of_prefix_false ?_
    rw [show cs.drop i = (c :: cs).drop (i + 1) from rfl]
    rcases Nat.lt_or_ge (i + 1) 22 with hp | hp
    · obtain ⟨a, ha1, ha2⟩ := @run_digit_at pendLit (c :: cs) 0 (by omega)
      refine isPrefixOf_false_of_digit (i + 1) (pendLit.length + 0)
        (by decide : ∀ ch ∈ apprLit, ch.isDigit = false) ha1 ha2
        (by omega) (by omega)
    · obtain ⟨a, ha1, ha2⟩ := @run_digit_at pendLit (c :: cs)
        (i + 1 - 22) (by omega)
      refine isPrefixOf_false_of_digit (i + 1) (pendLit.length + (i + 1 - 22))
        (by decide : ∀ ch ∈ apprLit, ch.isDigit = false) ha1 ha2
        (by omega) (by omega)
  · refine matchCountAt_none_of_prefix_false ?_
    rw [isPrefixOf_eq_of_take_eq pendLit _ (c :: cs) ?_]
    · exact Bool.eq_false_iff.mpr hpre
    · rw [show pendLit.length = 21 + 1 by decide, List.take_succ_cons,
        List.take_succ_cons,
        subCount_take_eq apprLit na cs 0 21 (by intro i hi; omega) (by omega)]

/-- Rewriting a count region as a region followed by its closing bar. -/
theorem count_region_split (lit2 ds K : Str) :
    lit2 ++ ds ++ ' ' :: '|' :: K = (lit2 ++ ds ++ [' ']) ++ '|' :: K := by
  rw [List.append_assoc (lit2 ++ ds) [' '] ('|' :: K)]
  rfl

/-- Dropping within the left part of an append. -/
theorem drop_append_of_le (a b : Str) (i : Nat) (hi : i ≤ a.length) :
    (a ++ b).drop i = a.drop i ++ b := by
  rw [List.drop_append_eq_append_drop, show i - a.length = 0 by omega,
    List.drop_zero]

/-- Packaged window fact: no pending-row match starts in an
awaiting-approval region before its closing bar. -/
theorem region_no_pend (ds K : Str) (hds : ds ≠ [])
    (hdig : ∀ c ∈ ds, c.isDigit = true) :
    ∀ i < (apprLit ++ ds ++ [' ']).length,
      matchCountAt pendLit ((apprLit ++ ds ++ [' ']).drop i ++ '|' :: K) = none := by
  intro i hi
  have hlen : (apprLit ++ ds ++ [' ']).length = apprLit.length + ds.length + 1 := by
    rw [List.length_append, List.length_append]
    rfl
  have h1 : (apprLit ++ ds ++ [' ']).drop i ++ '|' :: K =
      ((apprLit ++ ds ++ [' ']) ++ '|' :: K).drop i :=
    (drop_append_of_le _ _ i (by omega)).symm
  rw [h1, ← count_region_split]
  exact no_pend_match_in_appr_region ds ('|' :: K) hds hdig i (by omega)

/-- Packaged window fact: no awaiting-approval match starts in a
pending-row region before its closing bar. -/
theorem region_no_appr (ds K : Str) (hds : ds ≠ [])
    (hdig : ∀ c ∈ ds, c.isDigit = true) :
    ∀ i < (pendLit ++ ds ++ [' ']).length,
      matchCountAt apprLit ((pendLit ++ ds ++ [' ']).drop i ++ '|' :: K) = none := by
  intro i hi
  have hlen : (pendLit ++ ds ++ [' ']).length = pendLit.length + ds.length + 1 := by
    rw [List.length_append, List.length_append]
    rfl
  have h1 : (pendLit ++ ds ++ [' ']).drop i ++ '|' :: K =
      ((pendLit ++ ds ++ [' ']) ++ '|' :: K).drop i :=
    (drop_append_of_le _ _ i (by omega)).symm
  rw [h1, ← count_region_split]
  exact no_appr_match_in_pend_region ds ('|' :: K) hds hdig i (by omega)

/-- Drop through the leading bar of a count region. -/
theorem region_tail_drop (lit2 ds K : Str) {t2 : Str} (hl : lit2 = '|' :: t2)
    (i : Nat) (hi : i ≤ (t2 ++ ds ++ [' ']).length) :
    (t2 ++ ds ++ [' ']).drop i ++ '|' :: K =
      (lit2 ++ ds ++ ' ' :: '|' :: K).drop (i + 1) := by
  rw [count_region_split, hl,
    show ('|' :: t2) ++ ds ++ [' '] = '|' :: (t2 ++ ds ++ [' ']) by
      rw [List.cons_append, List.cons_append],
    List.cons_append, List.drop_succ_cons]
  exact (drop_append_of_le _ _ i hi).symm

/-- Packaged window fact: no pending-row match starts in the tail of an
awaiting-approval region whose leading bar was already consumed. -/
theorem region_tail_no_pend (ds K : Str) (hds : ds ≠ [])
    (hdig : ∀ c ∈ ds, c.isDigit = true) :
    ∀ i < (apprLit.drop 1 ++ ds ++ [' ']).length,
      matchCountAt pendLit
        ((apprLit.drop 1 ++ ds ++ [' ']).drop i ++ '|' :: K) = none := by
  intro i hi
  rw [region_tail_drop apprLit ds K (by decide) i (by omega)]
  have hlen : (apprLit.drop 1 ++ ds ++ [' ']).length =
      apprLit.length - 1 + ds.length + 1 := by
    rw [List.length_append, List.length_append, List.length_drop]
    rfl
  have h26 : apprLit.length = 26 := by decide
  exact no_pend_match_in_appr_region ds ('|' :: K) hds hdig (i + 1) (by omega)

/-- Packaged window fact: no awaiting-approval match starts in the tail
of a pending-row region whose leading bar was already consumed. -/
theorem region_tail_no_appr (ds K : Str) (hds : ds ≠ [])
    (hdig : ∀ c ∈ ds, c.isDigit = true) :
    ∀ i < (pendLit.drop 1 ++ ds ++ [' ']).length,
      matchCountAt apprLit
        ((pendLit.drop 1 ++ ds ++ [' ']).drop i ++ '|' :: K) = none := by
  intro i hi
  rw [region_tail_drop pendLit ds K (by decide) i (by omega)]
  have hlen : (pendLit.drop 1 ++ ds ++ [' ']).length =
      pendLit.length - 1 + ds.length + 1 := by
    rw [List.length_append, List.length_append, List.length_drop]
    rfl
  have h22 : pendLit.length = 22 := by decide
  exact no_appr_match_in_pend_region ds ('|' :: K) hds hdig (i + 1) (by omega)

/-- Nonempty lists have positive length. -/
theorem length_pos_of_ne_nil {l : Str} (h : l ≠ []) : 1 ≤ l.length := by
  cases l with
  | nil => exact absurd rfl h
  | cons a as => simp

/-- Writing an awaiting-approval count region with its leading bar
peeled off. -/
theorem appr_region_cons (ds X : Str) :
    apprLit ++ ds ++ ' ' :: '|' :: X =
      '|' :: ((apprLit.drop 1 ++ ds ++ [' ']) ++ '|' :: X) := by
  conv_lhs => rw [show apprLit = '|' :: apprLit.drop 1 by decide]
  rw [List.cons_append, List.cons_append, count_region_split]

/-- Writing a pending-row count region with its leading bar peeled
off. -/
theorem pend_region_cons (ds X : Str) :
    pendLit ++ ds ++ ' ' :: '|' :: X =
      '|' :: ((pendLit.drop 1 ++ ds ++ [' ']) ++ '|' :: X) := by
  conv_lhs => rw [show pendLit = '|' :: pendLit.drop 1 by decide]
  rw [List.cons_append, List.cons_append, count_region_split]

/-- Joint induction: pending-row fixedness is preserved by the
awaiting-approval substitution, both for whole texts and for texts whose
leading closing bar was already consumed by the scanner. -/
theorem pend_fixed_appr_aux (np na : Nat) : ∀ N : Nat,
    (∀ z : Str, z.length ≤ N → subCount pendLit np z = z →
      subCount pendLit np (subCount apprLit na z) = subCount apprLit na z) ∧
    (∀ u : Str, u.length ≤ N → subCount pendLit np ('|' :: u) = '|' :: u →
      subCount pendLit np ('|' :: subCount apprLit na u) =
        '|' :: subCount apprLit na u) := by
  intro N
  induction N with
  | zero =>
    constructor
    · intro z hlen hfix
      have hz : z = [] := List.eq_nil_of_length_eq_zero (Nat.le_zero.mp hlen)
      subst hz
      rw [subCount_nil, subCount_nil]
    · intro u hlen hfix
      have hu : u = [] := List.eq_nil_of_length_eq_zero (Nat.le_zero.mp hlen)
      subst hu
      rw [subCount_nil]
      exact hfix
  | succ N ih =>
    have h22 : pendLit.length = 22 := by decide
    have h26 : apprLit.length = 26 := by decide
    have hmain : ∀ z : Str, z.length ≤ N + 1 → subCount pendLit np z = z →
        subCount pendLit np (subCount apprLit na z) = subCount apprLit na z := by
      intro z hlen hfix
      cases hA : matchCountAt apprLit z with
      | some r =>
        obtain ⟨dA, hdec, hdne, hdds⟩ := matchCountAt_decomp hA
        have hzsplit : z = (apprLit ++ dA ++ [' ']) ++ '|' :: r := by
          rw [hdec, ← List.append_assoc, count_region_split]
        have hfix2 := hfix
        rw [hzsplit] at hfix2
        have hbarfix : subCount pendLit np ('|' :: r) = '|' :: r :=
          subCount_fixed_append_elim (region_no_pend dA r hdne hdds) hfix2
        have hrlen : r.length ≤ N := by
          have hzl := congrArg List.length hzsplit
          simp only [List.length_append, List.length_cons, List.length_nil] at hzl
          have hd1 : 1 ≤ dA.length := length_pos_of_ne_nil hdne
          omega
        have hbar := ih.2 r hrlen hbarfix
        rw [subCount_eq_of_match hA, count_region_split]
        exact subCount_fixed_append_intro
          (region_no_pend (natDigits na) (subCount apprLit na r)
            (natDigits_ne_nil na) (natDigits_digits na)) hbar
      | none =>
        cases z with
        | nil => rw [subCount_nil, subCount_nil]
        | cons c cs =>
          cases hP : matchCountAt pendLit (c :: cs) with
          | none =>
            rw [subCount_cons_none hA]
            refine subCount_fixed_cons_intro (pend_none_cons_subCount_appr na hP) ?_
            refine ih.1 cs ?_ (subCount_fixed_cons_elim hP hfix)
            rw [List.length_cons] at hlen
            omega
          | some w =>
            obtain ⟨hzform, hwfix⟩ := subCount_fixed_match_elim hP hfix
            have hAz : subCount apprLit na (c :: cs) =
                (pendLit ++ natDigits np ++ [' ']) ++
                  subCount apprLit na ('|' :: w) := by
              rw [hzform, count_region_split]
              exact subCount_append_no_match apprLit na _ _
                (region_no_appr (natDigits np) w (natDigits_ne_nil np)
                  (natDigits_digits np))
            have hwlen : w.length + 24 ≤ N + 1 := by
              have hzl := congrArg List.length hzform
              rw [List.length_cons] at hlen
              simp only [List.length_append, List.length_cons] at hzl
              have hnp1 : 1 ≤ (natDigits np).length :=
                length_pos_of_ne_nil (natDigits_ne_nil np)
              omega
            rw [hAz]
            cases hA2 : matchCountAt apprLit ('|' :: w) with
            | none =>
              rw [subCount_cons_none hA2, ← count_region_split]
              exact subCount_fixed_match_intro (ih.1 w (by omega) hwfix)
            | some t =>
              obtain ⟨dA2, hdec2, hd2ne, hd2ds⟩ := matchCountAt_decomp hA2
              have h2 := hdec2
              rw [← List.append_assoc, appr_region_cons] at h2
              have hwform : w = (apprLit.drop 1 ++ dA2 ++ [' ']) ++ '|' :: t := by
                injection h2
              have hbarfix : subCount pendLit np ('|' :: t) = '|' :: t := by
                have h3 := hwfix
                rw [hwform] at h3
                exact subCount_fixed_append_elim
                  (region_tail_no_pend dA2 t hd2ne hd2ds) h3
              have htlen : t.length ≤ N := by
                have hwl := congrArg List.length hwform
                simp only [List.length_append, List.length_cons, List.length_nil,
                  List.length_drop] at hwl
                have hd1 : 1 ≤ dA2.length := length_pos_of_ne_nil hd2ne
                omega
              have hbart := ih.2 t htlen hbarfix
              rw [subCount_eq_of_match hA2, appr_region_cons,
                ← count_region_split pendLit (natDigits np)]
              refine subCount_fixed_match_intro ?_
              exact subCount_fixed_append_intro
                (region_tail_no_pend (natDigits na) (subCount apprLit na t)
                  (natDigits_ne_nil na) (natDigits_digits na)) hbart
    refine ⟨hmain, ?_⟩
    intro u hlen hfix
    cases hP : matchCountAt pendLit ('|' :: u) with
    | none =>
      exact subCount_fixed_cons_intro (pend_none_cons_subCount_appr na hP)
        (hmain u hlen (subCount_fixed_cons_elim hP hfix))
    | some s =>
      obtain ⟨huform, hsfix⟩ := subCount_fixed_match_elim hP hfix
      have h2 := huform
      rw [pend_region_cons] at h2
      have huval2 : u = (pendLit.drop 1 ++ natDigits np ++ [' ']) ++ '|' :: s := by
        injection h2
      have hAu : subCount apprLit na u =
          (pendLit.drop 1 ++ natDigits np ++ [' ']) ++
            subCount apprLit na ('|' :: s) := by
        rw [huval2]
        exact subCount_append_no_match apprLit na _ _
          (region_tail_no_appr (natDigits np) s (natDigits_ne_nil np)
            (natDigits_digits np))
      have hslen : s.length + 24 ≤ N + 1 := by
        have hul := congrArg List.length huval2
        simp only [List.length_append, List.length_cons, List.length_nil,
          List.length_drop] at hul
        have hnp1 : 1 ≤ (natDigits np).length :=
          length_pos_of_ne_nil (natDigits_ne_nil np)
        omega
      rw [hAu]
      cases hA2 : matchCountAt apprLit ('|' :: s) with
      | none =>
        rw [subCount_cons_none hA2, ← pend_region_cons]
        exact subCount_fixed_match_intro (hmain s (by omega) hsfix)
      | some t =>
        obtain ⟨dA2, hdec2, hd2ne, hd2ds⟩ := matchCountAt_decomp hA2
        have h4 := hdec2
        rw [← List.append_assoc, appr_region_cons] at h4
        have hsform : s = (apprLit.drop 1 ++ dA2 ++ [' ']) ++ '|' :: t := by
          injection h4
        have hbarfix : subCount pendLit np ('|' :: t) = '|' :: t := by
          have h5 := hsfix
          rw [hsform] at h5
          exact subCount_fixed_append_elim
            (region_tail_no_pend dA2 t hd2ne hd2ds) h5
        have htlen : t.length ≤ N := by
          have hsl := congrArg List.length hsform
          simp only [List.length_append, List.length_cons, List.length_nil,
            List.length_drop] at hsl
          have hd1 : 1 ≤ dA2.length := length_pos_of_ne_nil hd2ne
          omega
        have hbart := ih.2 t htlen hbarfix
        rw [subCount_eq_of_match hA2, appr_region_cons,
          ← pend_region_cons]
        refine subCount_fixed_match_intro ?_
        exact subCount_fixed_append_intro
          (region_tail_no_pend (natDigits na) (subCount apprLit na t)
            (natDigits_ne_nil na) (natDigits_digits na)) hbart

/-- Splitting a full count region, closing bar included. -/
theorem count_region_full_split (lit2 ds K : Str) :
    lit2 ++ ds ++ ' ' :: '|' :: K = (lit2 ++ ds ++ [' ', '|']) ++ K := by
  rw [List.append_assoc (lit2 ++ ds) [' ', '|'] K]
  rfl

/-- The `last_updated` substitution passes through a region offering no
literal prefix. -/
theorem subLU_append_no_match (ts : Str) (a b : Str)
    (h : ∀ i < a.length, luLit.isPrefixOf (a.drop i ++ b) = false) :
    subLU ts (a ++ b) = a ++ subLU ts b := by
  induction a with
  | nil => rfl
  | cons c cs ih =>
    rw [List.cons_append]
    have h0 : luLit.isPrefixOf (c :: (cs ++ b)) = false := by
      have h1 := h 0 (by simp)
      rw [List.drop_zero, List.cons_append] at h1
      exact h1
    rw [subLU_cons_neg (by rw [h0]; simp),
      ih fun i hi => by simpa using h (i + 1) (by simp; omega), List.cons_append]

/-- Fixedness of the `last_updated` substitution restricts to the tail
after a prefix-free region. -/
theorem subLU_fixed_append_elim {ts a b : Str}
    (h : ∀ i < a.length, luLit.isPrefixOf (a.drop i ++ b) = false)
    (hfix : subLU ts (a ++ b) = a ++ b) : subLU ts b = b := by
  rw [subLU_append_no_match ts a b h] at hfix
  exact List.append_cancel_left hfix

/-- Fixedness of the `last_updated` substitution extends over a
prefix-free region. -/
theorem subLU_fixed_append_intro {ts a b : Str}
    (h : ∀ i < a.length, luLit.isPrefixOf (a.drop i ++ b) = false)
    (hfix : subLU ts b = b) : subLU ts (a ++ b) = a ++ b := by
  rw [subLU_append_no_match ts a b h, hfix]

/-- Conversion between drops of split and unsplit full count regions. -/
theorem count_region_full_drop (lit2 ds K : Str) (i : Nat)
    (hi : i ≤ lit2.length + ds.length + 1) :
    (lit2 ++ ds ++ [' ', '|']).drop i ++ K =
      (lit2 ++ ds ++ ' ' :: '|' :: K).drop i := by
  have hlen : (lit2 ++ ds ++ [' ', '|']).length =
      lit2.length + ds.length + 2 := by
    rw [List.length_append, List.length_append]
    rfl
  rw [count_region_full_split lit2 ds K]
  exact (drop_append_of_le (lit2 ++ ds ++ [' ', '|']) K i (by omega)).symm

/-- Digits are never newlines. -/
theorem digit_ne_nl {c : Char} (h : c.isDigit = true) : c ≠ '\n' := by
  intro he
  rw [he] at h
  exact absurd h (by decide)

/-- A count substitution with a newline-free literal preserves
newline-freedom. -/
theorem subCount_no_nl {lit2 : Str} (n : Nat) (hl : '\n' ∉ lit2) :
    ∀ {x : Str}, '\n' ∉ x → '\n' ∉ subCount lit2 n x := by
  intro x
  induction x using subCount.induct lit2 n with
  | case1 =>
    intro hx
    rw [subCount_nil]
    exact hx
  | case2 c cs rest h ih =>
    intro hx
    obtain ⟨ds, hdec, hne, hds⟩ := matchCountAt_decomp h
    have hrest : '\n' ∉ rest := by
      intro hm
      refine hx ?_
      rw [hdec]
      refine List.mem_append.mpr (Or.inr ?_)
      refine List.mem_append.mpr (Or.inr ?_)
      exact List.mem_cons_of_mem _ (List.mem_cons_of_mem _ hm)
    rw [subCount_cons_some h]
    intro hm
    rcases List.mem_append.mp hm with hm2 | hm2
    · rcases List.mem_append.mp hm2 with hm3 | hm3
      · exact hl hm3
      · exact digit_ne_nl (natDigits_digits n _ hm3) rfl
    · rcases List.mem_cons.mp hm2 with he | hm3
      · exact absurd he (by decide)
      · rcases List.mem_cons.mp hm3 with he | hm4
        · exact absurd he (by decide)
        · exact ih hrest hm4
  | case3 c cs h ih =>
    intro hx
    rw [subCount_cons_none h]
    intro hm
    rcases List.mem_cons.mp hm with he | hm2
    · exact hx (by rw [he]; exact List.mem_cons_self _ _)
    · exact ih (fun hc => hx (List.mem_cons_of_mem _ hc)) hm2

/-- No count match can start inside a rewritten `last_updated` region
when the timestamp is bar-free. -/
theorem no_count_in_lu_region (ts b : Str) (hts2 : '|' ∉ ts)
    {lit2 : Str} (hlb : lit2[0]? = some '|') :
    ∀ i < (luLit ++ ts ++ ['\n']).length,
      matchCountAt lit2 ((luLit ++ ts ++ ['\n']).drop i ++ b) = none := by
  intro i hi
  refine matchCountAt_none_of_prefix_false ?_
  have h1 : (luLit ++ ts ++ ['\n']).drop i ++ b =
      ((luLit ++ ts ++ ['\n']) ++ b).drop i :=
    (drop_append_of_le _ _ i (by omega)).symm
  rw [h1]
  cases he : (luLit ++ ts ++ ['\n'])[i]? with
  | none =>
    exfalso
    rw [List.getElem?_eq_none_iff] at he
    omega
  | some e =>
    refine isPrefixOf_false_of_getElem (a := e) i 0 hlb ?_ ?_
    · rw [Nat.add_zero, List.getElem?_append, if_pos (by omega)]
      exact he
    · have hmem : e ∈ luLit ++ ts ++ ['\n'] := List.getElem?_mem he
      intro hbar
      subst hbar
      rcases List.mem_append.mp hmem with h2 | h2
      · rcases List.mem_append.mp h2 with h3 | h3
        · exact absurd h3 (by decide)
        · exact hts2 h3
      · exact absurd (List.mem_singleton.mp h2) (by decide)

/-- The `last_updated` fixedness of a document is preserved by a count
substitution whose literal is bar-headed, newline-free and free of
shifted `last_updated` occurrences. -/
theorem lu_fixed_subCount (ts : Str) (hts1 : '\n' ∉ ts) (hts2 : '|' ∉ ts)
    (lit2 : Str) (n : Nat)
    (hlb : lit2[0]? = some '|') (hnl2 : '\n' ∉ lit2)
    (h13 : luLit.length ≤ lit2.length)
    (hwin : ∀ j < lit2.length, 1 ≤ j → j + luLit.length ≤ lit2.length →
      luLit.isPrefixOf (lit2.drop j) = false) :
    ∀ N : Nat, ∀ z : Str, z.length ≤ N → subLU ts z = z →
      subLU ts (subCount lit2 n z) = subCount lit2 n z := by
  have h14 : luLit.length = 14 := by decide
  intro N
  induction N with
  | zero =>
    intro z hlen hfix
    have hz : z = [] := List.eq_nil_of_length_eq_zero (Nat.le_zero.mp hlen)
    subst hz
    rw [subCount_nil]
    exact hfix
  | succ N ih =>
    intro z hlen hfix
    cases hC : matchCountAt lit2 z with
    | some r =>
      obtain ⟨dC, hdec, hdne, hdds⟩ := matchCountAt_decomp hC
      have hzsplit : z = (lit2 ++ dC ++ [' ', '|']) ++ r := by
        rw [hdec, ← List.append_assoc, count_region_full_split lit2 dC r]
      have hreglen : (lit2 ++ dC ++ [' ', '|']).length =
          lit2.length + dC.length + 2 := by
        rw [List.length_append, List.length_append]
        rfl
      have hno1 : ∀ i < (lit2 ++ dC ++ [' ', '|']).length,
          luLit.isPrefixOf ((lit2 ++ dC ++ [' ', '|']).drop i ++ r) = false := by
        intro i hi
        rw [count_region_full_drop lit2 dC r i (by omega)]
        exact no_lu_in_count_region lit2 dC r hdne hdds hlb (by decide) hwin
          i (by omega)
      have hfix2 := hfix
      rw [hzsplit] at hfix2
      have hrfix : subLU ts r = r := subLU_fixed_append_elim hno1 hfix2
      have hrlen : r.length ≤ N := by
        have hzl := congrArg List.length hzsplit
        rw [List.length_append, hreglen] at hzl
        omega
      rw [subCount_eq_of_match hC,
        count_region_full_split lit2 (natDigits n) (subCount lit2 n r)]
      refine subLU_fixed_append_intro ?_ (ih r hrlen hrfix)
      intro i hi
      have hreglen2 : (lit2 ++ natDigits n ++ [' ', '|']).length =
          lit2.length + (natDigits n).length + 2 := by
        rw [List.length_append, List.length_append]
        rfl
      rw [count_region_full_drop lit2 (natDigits n) _ i (by omega)]
      exact no_lu_in_count_region lit2 (natDigits n) _ (natDigits_ne_nil n)
        (natDigits_digits n) hlb (by decide) hwin i (by omega)
    | none =>
      cases z with
      | nil =>
        rw [subCount_nil]
        exact hfix
      | cons c cs =>
        by_cases hM : (luLit.isPrefixOf (c :: cs) &&
            (((c :: cs).drop luLit.length).contains '\n')) = true
        · have heq := hfix
          rw [subLU_eq_of_match hM] at heq
          set A0 := (((c :: cs).drop luLit.length).dropWhile isNotNl).tail
            with hA0def
          have hdrop : (c :: cs).drop luLit.length =
              ts ++ '\n' :: subLU ts A0 := by
            conv_lhs => rw [← heq]
            rw [List.append_assoc, List.drop_left]
          have hstep : ((c :: cs).drop luLit.length).dropWhile isNotNl =
              '\n' :: subLU ts A0 := by
            rw [hdrop, dropWhile_append_all isNotNl ts _ (ts_isNotNl hts1),
              List.dropWhile_cons, if_neg (by simp [isNotNl])]
          have hA0fix : subLU ts A0 = A0 := by
            conv_rhs => rw [hA0def, hstep]
            rfl
          have hzform : c :: cs = (luLit ++ ts ++ ['\n']) ++ A0 := by
            rw [← heq, hA0fix, List.append_assoc (luLit ++ ts) ['\n'] A0]
            rfl
          have hCz : subCount lit2 n (c :: cs) =
              (luLit ++ ts ++ ['\n']) ++ subCount lit2 n A0 := by
            rw [hzform]
            exact subCount_append_no_match lit2 n _ _
              (no_count_in_lu_region ts A0 hts2 hlb)
          have hA0len : A0.length ≤ N := by
            have hl := congrArg List.length hzform
            rw [List.length_cons] at hlen
            rw [List.length_cons, List.length_append, List.length_append,
              List.length_append] at hl
            have h1 : (['\n'] : Str).length = 1 := rfl
            rw [h1] at hl
            omega
          rw [hCz, List.append_assoc (luLit ++ ts) ['\n'] (subCount lit2 n A0),
            show (['\n'] : Str) ++ subCount lit2 n A0 =
              '\n' :: subCount lit2 n A0 from rfl,
            subLU_repl ts _ hts1, ih A0 hA0len hA0fix]
        · have hcsfix : subLU ts cs = cs := by
            have h2 := hfix
            rw [subLU_cons_neg hM] at h2
            injection h2
          have hcslen : cs.length ≤ N := by
            rw [List.length_cons] at hlen
            omega
          rw [subCount_cons_none hC]
          have hcond : ¬(luLit.isPrefixOf (c :: subCount lit2 n cs) &&
              (((c :: subCount lit2 n cs).drop luLit.length).contains '\n')) =
              true := by
            by_cases hpre : luLit.isPrefixOf (c :: cs) = true
            · have hcont : ((c :: cs).drop luLit.length).contains '\n' = false := by
                cases hcc : ((c :: cs).drop luLit.length).contains '\n' with
                | false => rfl
                | true => exact absurd (by rw [hpre, hcc]; rfl) hM
              have hznl : '\n' ∉ (c :: cs) := by
                intro hm
                rw [← List.take_append_drop luLit.length (c :: cs)] at hm
                rcases List.mem_append.mp hm with h2 | h2
                · rw [(List.prefix_iff_eq_take.mp
                    (List.isPrefixOf_iff_prefix.mp hpre)).symm] at h2
                  exact absurd h2 (by decide)
                · exact (contains_false_iff _ _).mp hcont h2
              have hnlC : '\n' ∉ subCount lit2 n cs :=
                subCount_no_nl n hnl2
                  (fun hm => hznl (List.mem_cons_of_mem _ hm))
              have hc2 : ((c :: subCount lit2 n cs).drop luLit.length).contains
                  '\n' = false := by
                rw [contains_false_iff]
                intro hm
                have hm2 : '\n' ∈ c :: subCount lit2 n cs :=
                  (List.drop_sublist _ _).mem hm
                rcases List.mem_cons.mp hm2 with he | hm3
                · exact hznl (by rw [he]; exact List.mem_cons_self _ _)
                · exact hnlC hm3
              intro hand
              simp only [Bool.and_eq_true] at hand
              rw [hand.2] at hc2
              cases hc2
            · have hpre2 : luLit.isPrefixOf (c :: subCount lit2 n cs) = false := by
                rw [isPrefixOf_eq_of_take_eq luLit _ (c :: cs) ?_]
                · exact Bool.eq_false_iff.mpr hpre
                · rw [show luLit.length = 13 + 1 by decide, List.take_succ_cons,
                    List.take_succ_cons,
                    subCount_take_eq lit2 n cs 0 13 (by intro i hi; omega)
                      (by omega)]
              simp [hpre2]
          rw [subLU_cons_neg hcond, ih cs hcslen hcsfix]

/-- Without its guard substring a count substitution is the identity. -/
theorem subCount_eq_self_of_no_guard (g lit2 : Str) (n : Nat)
    (hgl : g <+: lit2) {z : Str} (hg : containsSeq g z = false) :
    subCount lit2 n z = z := by
  refine subCount_eq_self lit2 n z ?_
  intro i hi
  refine matchCountAt_none_of_prefix_false ?_
  cases hp : lit2.isPrefixOf (z.drop i) with
  | false => rfl
  | true =>
    exfalso
    have h1 : g <:+: z :=
      ((hgl.trans (List.isPrefixOf_iff_prefix.mp hp)).isInfix).trans
        (List.drop_suffix i z).isInfix
    rw [(containsSeq_infix_iff g z).mpr h1] at hg
    cases hg

/-- Unfolding of `update_dashboard` as nested conditionals. -/
theorem updateDashboard_def (np na : Nat) (ts doc : Str) :
    updateDashboard np na ts doc =
      (if containsSeq apprGuard
          (if containsSeq pendGuard (subLU ts doc) then
            subCount pendLit np (subLU ts doc)
          else subLU ts doc) then
        subCount apprLit na
          (if containsSeq pendGuard (subLU ts doc) then
            subCount pendLit np (subLU ts doc)
          else subLU ts doc)
      else
        (if containsSeq pendGuard (subLU ts doc) then
          subCount pendLit np (subLU ts doc)
        else subLU ts doc)) := rfl

/-- C6: dashboard synchronization is idempotent. Running
`update_dashboard` twice with the same stage counts and the same
timestamp text produces a byte-identical document after the first run;
the hypotheses say only that the interpolated timestamp contains no
newline and no bar character, which holds of every
`datetime.isoformat()` string. -/
theorem updateDashboard_idempotent (np na : Nat) (ts doc : Str)
    (h1 : '\n' ∉ ts) (h2 : '|' ∉ ts) :
    updateDashboard np na ts (updateDashboard np na ts doc) =
      updateDashboard np na ts doc := by
  have hpend_idem : ∀ x, subCount pendLit np (subCount pendLit np x) =
      subCount pendLit np x :=
    subCount_idem pendLit np (by decide) (by decide)
      (by decide : pendLit[pendLit.length - 2]? = some '|')
      (by decide : pendLit[pendLit.length - 1]? = some ' ') (by decide)
  have happr_idem : ∀ x, subCount apprLit na (subCount apprLit na x) =
      subCount apprLit na x :=
    subCount_idem apprLit na (by decide) (by decide)
      (by decide : apprLit[apprLit.length - 2]? = some '|')
      (by decide : apprLit[apprLit.length - 1]? = some ' ') (by decide)
  rw [updateDashboard_def np na ts doc]
  generalize hg1 : subLU ts doc = d1
  have hlu1 : subLU ts d1 = d1 := by
    rw [← hg1]
    exact subLU_idem ts h1 doc
  generalize hg2 : (if containsSeq pendGuard d1 then
      subCount pendLit np d1 else d1) = d2
  have hpfix2 : subCount pendLit np d2 = d2 := by
    rw [← hg2]
    split
    · exact hpend_idem d1
    · rename_i hgP
      exact subCount_eq_self_of_no_guard pendGuard pendLit np
        (List.isPrefixOf_iff_prefix.mp (by decide)) (Bool.eq_false_iff.mpr hgP)
  have hlu2 : subLU ts d2 = d2 := by
    rw [← hg2]
    split
    · exact lu_fixed_subCount ts h1 h2 pendLit np (by decide) (by decide)
        (by decide) (by decide) d1.length d1 le_rfl hlu1
    · exact hlu1
  generalize hg3 : (if containsSeq apprGuard d2 then
      subCount apprLit na d2 else d2) = d3
  have hlu3 : subLU ts d3 = d3 := by
    rw [← hg3]
    split
    · exact lu_fixed_subCount ts h1 h2 apprLit na (by decide) (by decide)
        (by decide) (by decide) d2.length d2 le_rfl hlu2
    · exact hlu2
  have hpfix3 : subCount pendLit np d3 = d3 := by
    rw [← hg3]
    split
    · exact (pend_fixed_appr_aux np na d2.length).1 d2 le_rfl hpfix2
    · exact hpfix2
  have hafix3 : subCount apprLit na d3 = d3 := by
    rw [← hg3]
    split
    · exact happr_idem d2
    · rename_i hgA
      exact subCount_eq_self_of_no_guard apprGuard apprLit na
        (List.isPrefixOf_iff_prefix.mp (by decide)) (Bool.eq_false_iff.mpr hgA)
  rw [updateDashboard_def np na ts d3, hlu3,
    show (if containsSeq pendGuard d3 then subCount pendLit np d3 else d3) = d3
      from by split <;> simp [hpfix3],
    show (if containsSeq apprGuard d3 then subCount apprLit na d3 else d3) = d3
      from by split <;> simp [hafix3]]

/-- The `last_updated` substitution is the identity on newline-free
text. -/
theorem subLU_eq_self_of_nl_free (ts : Str) {x : Str} (h : '\n' ∉ x) :
    subLU ts x = x := by
  refine subLU_eq_self_of_no_nl_tail ts x ?_
  rw [contains_false_iff]
  exact fun hm => h ((List.drop_sublist _ _).mem hm)

/-- A newline-free prefix check does not see past an explicit
newline. -/
theorem isPrefixOf_append_nl (p : Str) (hp : '\n' ∉ p) :
    ∀ (a : Str), '\n' ∉ a → ∀ B : Str,
      p.isPrefixOf (a ++ '\n' :: B) = p.isPrefixOf a := by
  induction p with
  | nil => intro a ha B; simp
  | cons q qs ih =>
    intro a ha B
    cases a with
    | nil =>
      rw [List.nil_append]
      have hq : q ≠ '\n' := fun he => hp (by rw [he]; exact List.mem_cons_self _ _)
      rw [show (q :: qs).isPrefixOf ('\n' :: B) = ((q == '\n') && qs.isPrefixOf B)
          from rfl]
      rw [show (q == '\n') = false from by
        cases hqe : q == '\n' with
        | false => rfl
        | true => exact absurd (eq_of_beq hqe) hq]
      rfl
    | cons b bs =>
      rw [List.cons_append,
        show (q :: qs).isPrefixOf (b :: (bs ++ '\n' :: B)) =
          ((q == b) && qs.isPrefixOf (bs ++ '\n' :: B)) from rfl,
        show (q :: qs).isPrefixOf (b :: bs) =
          ((q == b) && qs.isPrefixOf bs) from rfl,
        ih (fun hm => hp (List.mem_cons_of_mem _ hm))
          bs (fun hm => ha (List.mem_cons_of_mem _ hm)) B]

/-- `takeWhile` with a failing separator sees only the left part. -/
theorem takeWhile_append_fail (q : Char → Bool) (c : Char) (hc : q c = false) :
    ∀ (x B : Str), (x ++ c :: B).takeWhile q = x.takeWhile q := by
  intro x B
  induction x with
  | nil =>
    rw [List.nil_append, List.takeWhile_cons, if_neg (by simp [hc])]
    rfl
  | cons d ds ih =>
    rw [List.cons_append, List.takeWhile_cons, List.takeWhile_cons]
    by_cases hd : q d = true
    · rw [if_pos hd, if_pos hd, ih]
    · rw [if_neg hd, if_neg hd]

/-- `dropWhile` with a failing separator keeps the rest intact. -/
theorem dropWhile_append_fail (q : Char → Bool) (c : Char) (hc : q c = false) :
    ∀ (x B : Str), (x ++ c :: B).dropWhile q = x.dropWhile q ++ c :: B := by
  intro x B
  induction x with
  | nil =>
    rw [List.nil_append, List.dropWhile_cons, if_neg (by simp [hc])]
    rfl
  | cons d ds ih =>
    rw [List.cons_append, List.dropWhile_cons, List.dropWhile_cons]
    by_cases hd : q d = true
    · rw [if_pos hd, if_pos hd, ih]
    · rw [if_neg hd, if_neg hd, List.cons_append]

/-- A count match never crosses an explicit newline. -/
theorem matchCountAt_append_nl (lit : Str) (hl : '\n' ∉ lit)
    (a B : Str) (ha : '\n' ∉ a) :
    matchCountAt lit (a ++ '\n' :: B) =
      (matchCountAt lit a).map (fun r => r ++ '\n' :: B) := by
  unfold matchCountAt matchCountTail
  rw [isPrefixOf_append_nl lit hl a ha B]
  cases hp : lit.isPrefixOf a with
  | false =>
    rw [if_neg (by simp), if_neg (by simp)]
    rfl
  | true =>
    rw [if_pos rfl, if_pos rfl]
    have hLle : lit.length ≤ a.length :=
      (List.isPrefixOf_iff_prefix.mp hp).length_le
    rw [drop_append_of_le a ('\n' :: B) lit.length hLle]
    rw [takeWhile_append_fail Char.isDigit '\n' (by decide) (a.drop lit.length) B,
      dropWhile_append_fail Char.isDigit '\n' (by decide) (a.drop lit.length) B]
    cases he : ((a.drop lit.length).takeWhile Char.isDigit).isEmpty with
    | true =>
      rw [if_pos rfl, if_pos rfl]
      rfl
    | false =>
      have hnp : '\n' ∉ (a.drop lit.length).dropWhile Char.isDigit := fun hm =>
        ha ((List.drop_sublist _ _).mem ((List.dropWhile_sublist _).mem hm))
      rw [isPrefixOf_append_nl [' ', '|'] (by decide) _ hnp B]
      cases hsp : (' ' :: '|' :: []).isPrefixOf
          ((a.drop lit.length).dropWhile Char.isDigit) with
      | false => simp
      | true =>
        have h2le : 2 ≤ ((a.drop lit.length).dropWhile Char.isDigit).length :=
          (List.isPrefixOf_iff_prefix.mp hsp).length_le
        rw [drop_append_of_le _ ('\n' :: B) 2 h2le]
        simp

/-- A count substitution distributes over an explicit newline. -/
theorem subCount_append_line (lit : Str) (n : Nat) (hl : '\n' ∉ lit)
    (B : Str) : ∀ {A : Str}, '\n' ∉ A →
    subCount lit n (A ++ '\n' :: B) = subCount lit n A ++ '\n' :: subCount lit n B := by
  intro A
  induction A using subCount.induct lit n with
  | case1 =>
    intro hA
    rw [List.nil_append, subCount_nil, List.nil_append]
    have hm : matchCountAt lit ('\n' :: B) = none := by
      have h2 := matchCountAt_append_nl lit hl [] B (by simp)
      rw [List.nil_append] at h2
      rw [h2]
      have h3 : matchCountAt lit ([] : Str) = none := by
        unfold matchCountAt matchCountTail
        by_cases h4 : lit.isPrefixOf ([] : Str) = true
        · rw [if_pos h4]
          simp
        · rw [if_neg h4]
      rw [h3]
      rfl
    rw [subCount_cons_none hm]
  | case2 c cs rest h ih =>
    intro hA
    obtain ⟨ds, hdec, hne, hds⟩ := matchCountAt_decomp h
    have hrest : '\n' ∉ rest := by
      intro hm
      refine hA ?_
      rw [hdec]
      refine List.mem_append.mpr (Or.inr ?_)
      refine List.mem_append.mpr (Or.inr ?_)
      exact List.mem_cons_of_mem _ (List.mem_cons_of_mem _ hm)
    have hm2 : matchCountAt lit ((c :: cs) ++ '\n' :: B) =
        some (rest ++ '\n' :: B) := by
      rw [matchCountAt_append_nl lit hl (c :: cs) B hA, h]
      rfl
    rw [subCount_eq_of_match hm2, subCount_cons_some h, ih hrest,
      List.append_assoc (lit ++ natDigits n)]
    rfl
  | case3 c cs h ih =>
    intro hA
    have hm2 : matchCountAt lit ((c :: cs) ++ '\n' :: B) = none := by
      rw [matchCountAt_append_nl lit hl (c :: cs) B hA, h]
      rfl
    rw [List.cons_append] at hm2 ⊢
    rw [subCount_cons_none hm2, subCount_cons_none h,
      ih (fun hm => hA (List.mem_cons_of_mem _ hm)), List.cons_append]

/-- The per-line effect of an untouched line under `luLineFix`. -/
theorem luLineFix_eq_self_of_no_lit (ts : Str) :
    ∀ {l : Str}, containsSeq luLit l = false → luLineFix ts l = l := by
  intro l
  induction l with
  | nil => intro h; rfl
  | cons c cs ih =>
    intro h
    unfold containsSeq at h
    rw [Bool.or_eq_false_iff] at h
    rw [luLineFix, if_neg (by rw [h.1]; simp), ih h.2]

/-- The `last_updated` substitution distributes over an explicit
newline, acting as `luLineFix` on the terminated line. -/
theorem subLU_append_line (ts B : Str) :
    ∀ {A : Str}, '\n' ∉ A →
    subLU ts (A ++ '\n' :: B) = luLineFix ts A ++ '\n' :: subLU ts B := by
  intro A
  induction A with
  | nil =>
    intro hA
    rw [List.nil_append]
    have hpre : luLit.isPrefixOf ('\n' :: B) = false := by
      rw [show luLit = 'l' :: luLit.drop 1 from by decide,
        show ('l' :: luLit.drop 1).isPrefixOf ('\n' :: B) =
          (('l' == '\n') && (luLit.drop 1).isPrefixOf B) from rfl]
      simp
    rw [subLU_cons_neg (by rw [hpre]; simp)]
    rfl
  | cons c cs ih =>
    intro hA
    rw [List.cons_append]
    by_cases hpre : luLit.isPrefixOf (c :: cs) = true
    · have hpre2 : luLit.isPrefixOf (c :: (cs ++ '\n' :: B)) = true := by
        have h2 := isPrefixOf_append_nl luLit (by decide) (c :: cs) hA B
        rw [List.cons_append] at h2
        rw [h2]
        exact hpre
      have hLle : luLit.length ≤ (c :: cs).length :=
        (List.isPrefixOf_iff_prefix.mp hpre).length_le
      have hdropeq : (c :: (cs ++ '\n' :: B)).drop luLit.length =
          (c :: cs).drop luLit.length ++ '\n' :: B := by
        rw [show c :: (cs ++ '\n' :: B) = (c :: cs) ++ '\n' :: B from rfl]
        exact drop_append_of_le (c :: cs) ('\n' :: B) luLit.length hLle
      have hcond : (luLit.isPrefixOf (c :: (cs ++ '\n' :: B)) &&
          (((c :: (cs ++ '\n' :: B)).drop luLit.length).contains '\n')) = true := by
        rw [hpre2, hdropeq]
        simp
      rw [subLU_cons_pos hcond, hdropeq]
      have hnldrop : ∀ e ∈ (c :: cs).drop luLit.length, isNotNl e = true :=
        ts_isNotNl (fun hm => hA ((List.drop_sublist _ _).mem hm))
      rw [dropWhile_append_all isNotNl _ ('\n' :: B) hnldrop,
        List.dropWhile_cons, if_neg (by simp [isNotNl]),
        show (('\n' :: B) : Str).tail = B from rfl,
        luLineFix, if_pos hpre]
    · have hpre2 : luLit.isPrefixOf (c :: (cs ++ '\n' :: B)) = false := by
        have h2 := isPrefixOf_append_nl luLit (by decide) (c :: cs) hA B
        rw [List.cons_append] at h2
        rw [h2]
        exact Bool.eq_false_iff.mpr hpre
      rw [subLU_cons_neg (by rw [hpre2]; simp),
        ih (fun hm => hA (List.mem_cons_of_mem _ hm)),
        luLineFix, if_neg hpre, List.cons_append]

/-- Unfolding `joinLines` over a nonempty tail. -/
theorem joinLines_cons (a : Str) {l : List Str} (h : l ≠ []) :
    joinLines (a :: l) = a ++ '\n' :: joinLines l := by
  cases l with
  | nil => exact absurd rfl h
  | cons b bs =>
    show a ++ ['\n'] ++ joinSep ['\n'] (b :: bs) = a ++ '\n' :: joinSep ['\n'] (b :: bs)
    rw [List.append_assoc]
    rfl

/-- `mapInit` preserves length. -/
theorem mapInit_length (f : Str → Str) : ∀ ls : List Str,
    (mapInit f ls).length = ls.length := by
  intro ls
  induction ls with
  | nil => rfl
  | cons x xs ih =>
    cases xs with
    | nil => rfl
    | cons y ys =>
      rw [show mapInit f (x :: y :: ys) = f x :: mapInit f (y :: ys) from rfl,
        List.length_cons, List.length_cons, ih]

/-- `mapInit` preserves non-emptiness. -/
theorem mapInit_ne_nil (f : Str → Str) {l : List Str} (h : l ≠ []) :
    mapInit f l ≠ [] := by
  cases l with
  | nil => exact absurd rfl h
  | cons x xs =>
    cases xs with
    | nil => simp [mapInit]
    | cons y ys => simp [mapInit]

/-- The `last_updated` substitution acts linewise: `luLineFix` on every
newline-terminated line, identity on the final unterminated line. -/
theorem subLU_joinLines (ts : Str) : ∀ ls : List Str,
    (∀ l ∈ ls, '\n' ∉ l) →
    subLU ts (joinLines ls) = joinLines (mapInit (luLineFix ts) ls) := by
  intro ls
  induction ls with
  | nil =>
    intro h
    exact subLU_nil ts
  | cons x xs ih =>
    intro h
    cases xs with
    | nil => exact subLU_eq_self_of_nl_free ts (h x (List.mem_cons_self _ _))
    | cons y ys =>
      rw [joinLines_cons x (by simp),
        subLU_append_line ts _ (h x (List.mem_cons_self _ _)),
        ih (fun l hl => h l (List.mem_cons_of_mem _ hl)),
        show mapInit (luLineFix ts) (x :: y :: ys) =
          luLineFix ts x :: mapInit (luLineFix ts) (y :: ys) from rfl,
        joinLines_cons _ (mapInit_ne_nil _ (by simp))]

/-- A count substitution with a newline-free literal acts linewise. -/
theorem subCount_joinLines (lit : Str) (n : Nat) (hl : '\n' ∉ lit) :
    ∀ ls : List Str, (∀ l ∈ ls, '\n' ∉ l) →
    subCount lit n (joinLines ls) = joinLines (ls.map (subCount lit n)) := by
  intro ls
  induction ls with
  | nil =>
    intro h
    exact subCount_nil lit n
  | cons x xs ih =>
    intro h
    cases xs with
    | nil => rfl
    | cons y ys =>
      rw [List.map_cons, joinLines_cons (subCount lit n x) (by simp),
        joinLines_cons x (by simp),
        subCount_append_line lit n hl _ (h x (List.mem_cons_self _ _)),
        ih (fun l hl2 => h l (List.mem_cons_of_mem _ hl2))]

/-- `luLineFix` preserves newline-freedom for a newline-free
timestamp. -/
theorem luLineFix_no_nl (ts : Str) (hts : '\n' ∉ ts) :
    ∀ {l : Str}, '\n' ∉ l → '\n' ∉ luLineFix ts l := by
  intro l
  induction l with
  | nil =>
    intro h
    exact h
  | cons c cs ih =>
    intro h
    rw [luLineFix]
    split
    · intro hm
      rcases List.mem_append.mp hm with h2 | h2
      · exact absurd h2 (by decide)
      · exact hts h2
    · intro hm
      rcases List.mem_cons.mp hm with he | h2
      · exact h (by rw [he]; exact List.mem_cons_self _ _)
      · exact ih (fun hc => h (List.mem_cons_of_mem _ hc)) h2

/-- Properties closed under the mapped function survive `mapInit`. -/
theorem forall_mem_mapInit {f : Str → Str} {Q : Str → Prop}
    (hf : ∀ x, Q x → Q (f x)) : ∀ {ls : List Str}, (∀ l ∈ ls, Q l) →
    ∀ l ∈ mapInit f ls, Q l := by
  intro ls
  induction ls with
  | nil =>
    intro h l hl
    cases hl
  | cons x xs ih =>
    intro h l hl
    cases xs with
    | nil =>
      rcases List.mem_singleton.mp hl with rfl
      exact h l (List.mem_cons_self _ _)
    | cons y ys =>
      rcases List.mem_cons.mp hl with rfl | h2
      · exact hf x (h x (List.mem_cons_self _ _))
      · exact ih (fun m hm => h m (List.mem_cons_of_mem _ hm)) l h2

/-- Each position of `mapInit f ls` holds either the mapped or the
original element. -/
theorem mapInit_getElem (f : Str → Str) : ∀ (ls : List Str) (i : Nat),
    (mapInit f ls)[i]? = (ls[i]?).map f ∨ (mapInit f ls)[i]? = ls[i]? := by
  intro ls
  induction ls with
  | nil =>
    intro i
    right
    rfl
  | cons x xs ih =>
    intro i
    cases xs with
    | nil =>
      right
      rfl
    | cons y ys =>
      rw [show mapInit f (x :: y :: ys) = f x :: mapInit f (y :: ys) from rfl]
      cases i with
      | zero =>
        left
        rw [List.getElem?_cons_zero, List.getElem?_cons_zero]
        rfl
      | succ j =>
        rw [List.getElem?_cons_succ, List.getElem?_cons_succ]
        exact ih j

/-- C7 (amended): the dashboard rewrite acts linewise. It preserves the
number of lines, and every line that contains neither the
`last_updated: ` literal nor either count-row label is returned
byte-identical at its position. -/
theorem updateDashboard_frame (np na : Nat) (ts : Str) (ls : List Str)
    (hts : '\n' ∉ ts) (hls : ∀ l ∈ ls, '\n' ∉ l) :
    ∃ ls2 : List Str,
      updateDashboard np na ts (joinLines ls) = joinLines ls2 ∧
      ls2.length = ls.length ∧
      ∀ (i : Nat) (l : Str), ls[i]? = some l → untouchedLine l = true →
        ls2[i]? = some l := by
  set l1 := mapInit (luLineFix ts) ls with hl1
  have hl1nl : ∀ l ∈ l1, '\n' ∉ l := by
    rw [hl1]
    exact forall_mem_mapInit (Q := fun x => '\n' ∉ x)
      (fun x hx => luLineFix_no_nl ts hts hx) hls
  set l2 := (if containsSeq pendGuard (joinLines l1) then
    l1.map (subCount pendLit np) else l1) with hl2
  have hl2nl : ∀ l ∈ l2, '\n' ∉ l := by
    rw [hl2]
    split
    · intro l hl
      obtain ⟨m, hm, rfl⟩ := List.mem_map.mp hl
      exact subCount_no_nl np (by decide) (hl1nl m hm)
    · exact hl1nl
  set l3 := (if containsSeq apprGuard (joinLines l2) then
    l2.map (subCount apprLit na) else l2) with hl3
  refine ⟨l3, ?_, ?_, ?_⟩
  · rw [updateDashboard_def np na ts (joinLines ls),
      subLU_joinLines ts ls hls, ← hl1]
    have e2 : (if containsSeq pendGuard (joinLines l1) then
        subCount pendLit np (joinLines l1) else joinLines l1) = joinLines l2 := by
      rw [hl2]
      by_cases hg : containsSeq pendGuard (joinLines l1) = true
      · rw [if_pos hg, if_pos hg,
          subCount_joinLines pendLit np (by decide) l1 hl1nl]
      · rw [if_neg hg, if_neg hg]
    rw [e2, hl3]
    by_cases hg : containsSeq apprGuard (joinLines l2) = true
    · rw [if_pos hg, if_pos hg,
        subCount_joinLines apprLit na (by decide) l2 hl2nl]
    · rw [if_neg hg, if_neg hg]
  · have len1 : l1.length = ls.length := by
      rw [hl1]
      exact mapInit_length _ ls
    have len2 : l2.length = l1.length := by
      rw [hl2]
      split
      · exact List.length_map _ _
      · rfl
    have len3 : l3.length = l2.length := by
      rw [hl3]
      split
      · exact List.length_map _ _
      · rfl
    omega
  · intro i l hil hunt
    unfold untouchedLine at hunt
    simp only [Bool.and_eq_true, Bool.not_eq_true'] at hunt
    obtain ⟨⟨hu1, hu2⟩, hu3⟩ := hunt
    have s1 : l1[i]? = some l := by
      rw [hl1]
      rcases mapInit_getElem (luLineFix ts) ls i with hc | hc
      · rw [hc, hil,
          show Option.map (luLineFix ts) (some l) = some (luLineFix ts l)
            from rfl,
          luLineFix_eq_self_of_no_lit ts hu1]
      · rw [hc, hil]
    have s2 : l2[i]? = some l := by
      rw [hl2]
      split
      · rw [List.getElem?_map, s1,
          show Option.map (subCount pendLit np) (some l) =
            some (subCount pendLit np l) from rfl,
          subCount_eq_self_of_no_guard pendGuard pendLit np
            (List.isPrefixOf_iff_prefix.mp (by decide)) hu2]
      · exact s1
    rw [hl3]
    split
    · rw [List.getElem?_map, s2,
        show Option.map (subCount apprLit na) (some l) =
          some (subCount apprLit na l) from rfl,
        subCount_eq_self_of_no_guard apprGuard apprLit na
          (List.isPrefixOf_iff_prefix.mp (by decide)) hu3]
    · exact s2

/-- C7: counterexample to the claim as stated. A line that merely
contains the text `last_updated: ` mid-line — a similarly worded,
unrelated line — is rewritten by the dashboard sync, because `re.sub`
performs a free substring search rather than exact field-label
matching at the start of a line. -/
theorem similarly_worded_line_rewritten :
    updateDashboard 0 0 "T".toList "xlast_updated: old\n".toList ≠
      "xlast_updated: old\n".toList := by
  have h1 : subLU "T".toList "xlast_updated: old\n".toList =
      "xlast_updated: T\n".toList := by
    rw [show ("xlast_updated: old\n".toList : Str) =
      'x' :: "last_updated: old\n".toList from by decide]
    rw [subLU_cons_neg (by decide)]
    rw [subLU_eq_of_match (by decide)]
    rw [show (((("last_updated: old\n".toList : Str)).drop
        luLit.length).dropWhile isNotNl).tail = ([] : Str) from by decide]
    rw [subLU_nil]
    decide
  intro hcontra
  rw [updateDashboard_def, h1] at hcontra
  rw [if_neg (by decide), if_neg (by decide)] at hcontra
  exact absurd hcontra (by decide)

/-- Witness for C6 at a concrete timestamp and dashboard document. -/
theorem updateDashboard_idempotent_witness :
    '\n' ∉ "2026-02-03T04:05:06".toList ∧
    '|' ∉ "2026-02-03T04:05:06".toList ∧
    updateDashboard 2 3 "2026-02-03T04:05:06".toList
        (updateDashboard 2 3 "2026-02-03T04:05:06".toList
          "# Dash\nlast_updated: x\n| **Pending Items** | 7 |\n".toList) =
      updateDashboard 2 3 "2026-02-03T04:05:06".toList
        "# Dash\nlast_updated: x\n| **Pending Items** | 7 |\n".toList :=
  ⟨by decide, by decide,
    updateDashboard_idempotent 2 3 _ _ (by decide) (by decide)⟩

/-- Witness for the amended C7 at a concrete document. -/
theorem updateDashboard_frame_witness :
    '\n' ∉ "T".toList ∧
    (∀ l ∈ ["# Dash".toList, "| **Pending Items** | 3 |".toList,
      "last_updated: x".toList], '\n' ∉ l) ∧
    (∃ ls2 : List Str,
      updateDashboard 1 2 "T".toList
          (joinLines ["# Dash".toList, "| **Pending Items** | 3 |".toList,
            "last_updated: x".toList]) = joinLines ls2 ∧
      ls2.length = (["# Dash".toList, "| **Pending Items** | 3 |".toList,
        "last_updated: x".toList] : List Str).length ∧
      ∀ (i : Nat) (l : Str),
        (["# Dash".toList, "| **Pending Items** | 3 |".toList,
          "last_updated: x".toList] : List Str)[i]? = some l →
        untouchedLine l = true → ls2[i]? = some l) :=
  ⟨by decide, by decide,
    updateDashboard_frame 1 2 "T".toList
      ["# Dash".toList, "| **Pending Items** | 3 |".toList,
        "last_updated: x".toList] (by decide) (by decide)⟩
